import Mathlib

set_option maxRecDepth 16384

/-!
# Verification of the wave-js RIFF/WAVE codec (src/wave.ts)

This file shallowly embeds the chunk object model and the encode/decode
engine of the repository's `src/wave.ts` and proves (or refutes) the frozen
claims about it.

Modelling conventions:
* JS `ArrayBuffer` / `Uint8Array` contents are `List Nat` with every byte
  `< 256` (the validity predicates record this).
* `DataView.setUintN(off, v, littleEndian)` writes `v mod 2^N` — the byte
  serialisers `u16LE`, `u32LE`, `u32BE` reduce the value `mod 256` per byte,
  which is exactly the JS wrap-around.
* Reads use `byteAt`, which yields 0 out of range.  JS `DataView` getters
  throw instead; every theorem below only reads in range (in-range positions
  are forced by the hypotheses), except where an explicit bounds check is
  part of the model (`decodeLoop`, `adtlLoop`, `decodeWave`, mirroring the
  places where the source slices views or the claims concern failures).
* Fallible operations return `Except String`; loops carry a fuel argument
  that strictly exceeds the number of iterations actually possible (each
  iteration consumes at least 8 bytes), keeping all definitions structurally
  recursive and kernel-computable.
-/

/-- Byte of a buffer at an index; 0 when out of range. -/
def byteAt : List Nat → Nat → Nat
  | [], _ => 0
  | b :: _, 0 => b
  | _ :: l, n + 1 => byteAt l n

/-- Model of `DataView.getUint16(off, true)` (little-endian). -/
def readU16LE (l : List Nat) (off : Nat) : Nat :=
  byteAt l off + 256 * byteAt l (off + 1)

/-- Model of `DataView.getUint32(off, true)` (little-endian). -/
def readU32LE (l : List Nat) (off : Nat) : Nat :=
  byteAt l off + 256 * byteAt l (off + 1) + 65536 * byteAt l (off + 2) +
    16777216 * byteAt l (off + 3)

/-- Model of `DataView.getUint32(off, false)` (big-endian, used for tags). -/
def readU32BE (l : List Nat) (off : Nat) : Nat :=
  16777216 * byteAt l off + 65536 * byteAt l (off + 1) +
    256 * byteAt l (off + 2) + byteAt l (off + 3)

/-- Bytes written by `setUint16(_, n, true)`. -/
def u16LE (n : Nat) : List Nat := [n % 256, n / 256 % 256]

/-- Bytes written by `setUint32(_, n, true)`. -/
def u32LE (n : Nat) : List Nat :=
  [n % 256, n / 256 % 256, n / 65536 % 256, n / 16777216 % 256]

/-- Bytes written by `setUint32(_, n, false)` (tags). -/
def u32BE (n : Nat) : List Nat :=
  [n / 16777216 % 256, n / 65536 % 256, n / 256 % 256, n % 256]

/-- Short-align: `if (x & 1) x++` — round up to the nearest even number. -/
def evenUp (n : Nat) : Nat := if n % 2 = 1 then n + 1 else n

/-- The `ChunkTagsBE` constants of the source. -/
def TagRIFF : Nat := 0x52494646
def TagWAVE : Nat := 0x57415645
def TagFMT  : Nat := 0x666D7420
def TagDATA : Nat := 0x64617461
def TagCUE  : Nat := 0x63756520
def TagSMPL : Nat := 0x736D706C
def TagLIST : Nat := 0x4C495354
def TagADTL : Nat := 0x6164746C
def TagLABL : Nat := 0x6C61626C

/-- JS `String.prototype.length` of a list of Unicode code points:
the number of UTF-16 code units (code points above `0xFFFF` take two). -/
def utf16Len : List Nat → Nat
  | [] => 0
  | c :: l => (if c < 0x10000 then 1 else 2) + utf16Len l

/-- UTF-8 encoding of one Unicode scalar value (what `TextEncoder` emits). -/
def utf8Char (c : Nat) : List Nat :=
  if c < 0x80 then [c]
  else if c < 0x800 then [0xC0 + c / 64, 0x80 + c % 64]
  else if c < 0x10000 then [0xE0 + c / 4096, 0x80 + c / 64 % 64, 0x80 + c % 64]
  else [0xF0 + c / 262144, 0x80 + c / 4096 % 64, 0x80 + c / 64 % 64, 0x80 + c % 64]

/-- UTF-8 encoding of a code-point sequence (`TextEncoder.encodeInto`). -/
def utf8Encode : List Nat → List Nat
  | [] => []
  | c :: l => utf8Char c ++ utf8Encode l

/-- Number of bytes in the UTF-8 encoding of a code-point sequence. -/
def utf8Len (l : List Nat) : Nat := (utf8Encode l).length

/-- UTF-8 decoder (`TextDecoder`, non-fatal: malformed sequences become
`U+FFFD` replacement characters and decoding never fails).  The fuel
argument only serves structural termination; every continuation consumes at
least one byte, so fuel `≥ length` never runs out. -/
def utf8DecodeF : Nat → List Nat → List Nat
  | 0, _ => []
  | _, [] => []
  | fuel + 1, b :: rest =>
    if b < 0x80 then b :: utf8DecodeF fuel rest
    else if b < 0xC2 then 0xFFFD :: utf8DecodeF fuel rest
    else if b < 0xE0 then
      match rest with
      | b1 :: rest' =>
        if 0x80 ≤ b1 ∧ b1 < 0xC0 then ((b - 0xC0) * 64 + (b1 - 0x80)) :: utf8DecodeF fuel rest'
        else 0xFFFD :: utf8DecodeF fuel rest
      | [] => [0xFFFD]
    else if b < 0xF0 then
      match rest with
      | b1 :: b2 :: rest' =>
        if 0x80 ≤ b1 ∧ b1 < 0xC0 ∧ 0x80 ≤ b2 ∧ b2 < 0xC0 then
          ((b - 0xE0) * 4096 + (b1 - 0x80) * 64 + (b2 - 0x80)) :: utf8DecodeF fuel rest'
        else 0xFFFD :: utf8DecodeF fuel rest
      | _ => [0xFFFD]
    else if b < 0xF5 then
      match rest with
      | b1 :: b2 :: b3 :: rest' =>
        if 0x80 ≤ b1 ∧ b1 < 0xC0 ∧ 0x80 ≤ b2 ∧ b2 < 0xC0 ∧ 0x80 ≤ b3 ∧ b3 < 0xC0 then
          ((b - 0xF0) * 262144 + (b1 - 0x80) * 4096 + (b2 - 0x80) * 64 + (b3 - 0x80)) ::
            utf8DecodeF fuel rest'
        else 0xFFFD :: utf8DecodeF fuel rest
      | _ => [0xFFFD]
    else 0xFFFD :: utf8DecodeF fuel rest

/-- Model of `TextDecoder.decode` on a byte list. -/
def utf8Decode (l : List Nat) : List Nat := utf8DecodeF l.length l

/-- The `Cue` record class: six u32 little-endian fields. -/
structure CueRec where
  id : Nat
  position : Nat
  chunkId : Nat
  chunkStart : Nat
  blockStart : Nat
  sampleOffset : Nat
deriving Repr, DecidableEq

/-- The `SampleLoop` record class: six u32 little-endian fields. -/
structure LoopRec where
  id : Nat
  type : Nat
  start : Nat
  endPos : Nat
  fraction : Nat
  playCount : Nat
deriving Repr, DecidableEq

/-- The chunk object model of `src/wave.ts`.  Each constructor is one of the
concrete `Chunk` classes; `adtl` and `list` nest sub-chunks exactly as
`ListChunk_ADTL.chunks : Chunk[]` and `ListChunk.body : Chunk` do. -/
inductive Chunk : Type where
  | unknown (tag : Nat) (data : List Nat)
  | format (compressionCode channelCount sampleRate avgBytesPerSecond blockAlign
      sigBitsPerSample : Nat) (extraFormatBytes : Option (List Nat))
  | cue (cues : List CueRec)
  | smpl (samplePeriod : Nat) (samplerData : Option (List Nat))
      (sampleLoops : List LoopRec)
      (manufacturer product midiUnityNote midiPitchFraction smpteFormat smpteOffset : Nat)
  | labl (cueId : Nat) (cueLabel : List Nat)
  | adtl (chunks : List Chunk)
  | list (body : Chunk)
  | data (bytes : List Nat)
deriving Repr

/-- The `tag` property of each chunk class. -/
def chunkTag : Chunk → Nat
  | .unknown t _ => t
  | .format .. => TagFMT
  | .cue _ => TagCUE
  | .smpl .. => TagSMPL
  | .labl .. => TagLABL
  | .adtl _ => TagADTL
  | .list _ => TagLIST
  | .data _ => TagDATA

mutual

/-- The `length()` method of each chunk class. -/
def chunkLength : Chunk → Nat
  | .unknown _ d => d.length
  | .format cc _ _ _ _ _ extra =>
      if cc ≤ 1 then 16 else 18 + (extra.getD []).length
  | .cue cues => 4 + cues.length * 24
  | .smpl _ sd loops _ _ _ _ _ _ => 36 + loops.length * 24 + (sd.getD []).length
  | .labl _ label => evenUp (4 + utf16Len label + 1)
  | .adtl cs => adtlLenSum cs
  | .list b => 4 + chunkLength b
  | .data d => d.length

/-- Model of `ListChunk_ADTL.length()`: `chunks.reduce((a, b) => a + 8 + b.length(), 0)`. -/
def adtlLenSum : List Chunk → Nat
  | [] => 0
  | c :: cs => 8 + chunkLength c + adtlLenSum cs

end


/-- Model of `Cue.pack`: six u32 little-endian fields at offsets 0,4,8,12,16,20. -/
def packCue (c : CueRec) : List Nat :=
  u32LE c.id ++ u32LE c.position ++ u32LE c.chunkId ++ u32LE c.chunkStart ++
    u32LE c.blockStart ++ u32LE c.sampleOffset

def packCues : List CueRec → List Nat
  | [] => []
  | c :: cs => packCue c ++ packCues cs

/-- Model of `SampleLoop.pack`: six u32 little-endian fields at offsets 0,4,8,12,16,20. -/
def packLoop (s : LoopRec) : List Nat :=
  u32LE s.id ++ u32LE s.type ++ u32LE s.start ++ u32LE s.endPos ++
    u32LE s.fraction ++ u32LE s.playCount

def packLoops : List LoopRec → List Nat
  | [] => []
  | s :: ss => packLoop s ++ packLoops ss

mutual

/-- The `pack(into)` method of each chunk class, as the byte contents of the
destination view.  The view handed to `pack` is a zero-initialised slice of
the freshly allocated `ArrayBuffer` of exactly `length()` bytes, and each
class writes consecutive fields at fixed offsets, so the view's final
contents are the concatenation below.  For `labl` the encoder writes the
UTF-8 bytes of the label after the cue id and the remaining bytes of the
view stay zero (this matches the source only when the UTF-8 bytes fit the
view, which the validity predicate guarantees; `ListChunk_ADTL_LABL.length`
counts UTF-16 units, so oversized non-ASCII labels overflow in JS).
`ListChunk_ADTL_LABL.pack` additionally builds its `Uint8Array` view 4
bytes LONGER than the labl body, so it throws a `RangeError` whenever fewer
than 4 buffer bytes follow the body; that position-dependent error path is
modelled by `packThrows`/`encodeWaveE` below — `packBody` gives the bytes
written in the non-throwing cases, where the oversized view is harmless
because `encodeInto` only writes the (ASCII, fitting) label bytes inside
the body.
For `adtl` the item loop advances `idx` by `8 + chunkSize` only — the source
inserts no alignment padding between items. -/
def packBody : Chunk → List Nat
  | .unknown _ d => d
  | .format cc ch sr ab ba bits extra =>
      u16LE cc ++ u16LE ch ++ u32LE sr ++ u32LE ab ++ u16LE ba ++ u16LE bits ++
        (if 1 < cc then u16LE (extra.getD []).length ++ extra.getD [] else [])
  | .cue cues => u32LE cues.length ++ packCues cues
  | .smpl sp sd loops man prod note frac sfmt soff =>
      u32LE man ++ u32LE prod ++ u32LE sp ++ u32LE note ++ u32LE frac ++
        u32LE sfmt ++ u32LE soff ++ u32LE loops.length ++ u32LE (sd.getD []).length ++
        packLoops loops ++ sd.getD []
  | .labl id label =>
      u32LE id ++ utf8Encode label ++
        List.replicate (evenUp (4 + utf16Len label + 1) - (4 + utf8Len label)) 0
  | .adtl cs => packAdtlItems cs
  | .list b => u32BE (chunkTag b) ++ packBody b
  | .data d => d

/-- The item loop of `ListChunk_ADTL.pack`: tag (big-endian), length
(little-endian), payload — and no pad byte before the next item. -/
def packAdtlItems : List Chunk → List Nat
  | [] => []
  | c :: cs => u32BE (chunkTag c) ++ u32LE (chunkLength c) ++ packBody c ++ packAdtlItems cs

end

/-- Model of `FormatChunk.unpack`. -/
def fmtUnpack (body : List Nat) : Chunk :=
  let cc := readU16LE body 0
  Chunk.format cc (readU16LE body 2) (readU32LE body 4) (readU32LE body 8)
    (readU16LE body 12) (readU16LE body 14)
    (if 1 < cc then some ((body.drop 18).take (readU16LE body 16)) else none)

/-- Model of `Cue.unpack` at a record offset. -/
def cueUnpackAt (body : List Nat) (idx : Nat) : CueRec :=
  ⟨readU32LE body idx, readU32LE body (idx + 4), readU32LE body (idx + 8),
    readU32LE body (idx + 12), readU32LE body (idx + 16), readU32LE body (idx + 20)⟩

/-- Model of `CueChunk.unpack`: u32 count, then `count` 24-byte records from offset 4. -/
def cueUnpack (body : List Nat) : Chunk :=
  Chunk.cue ((List.range (readU32LE body 0)).map (fun i => cueUnpackAt body (4 + 24 * i)))

/-- Model of `SampleLoop.unpack` at a record offset. -/
def loopUnpackAt (body : List Nat) (idx : Nat) : LoopRec :=
  ⟨readU32LE body idx, readU32LE body (idx + 4), readU32LE body (idx + 8),
    readU32LE body (idx + 12), readU32LE body (idx + 16), readU32LE body (idx + 20)⟩

/-- Model of `SampleChunk.unpack`: fixed 36-byte header, then `loopCount` records,
then `samplerDataSize` raw bytes (the `if (samplerDataSize)` truthiness test
means a zero size yields no sampler-data view). -/
def smplUnpack (body : List Nat) : Chunk :=
  let loopCount := readU32LE body 28
  let dataSize := readU32LE body 32
  Chunk.smpl (readU32LE body 8)
    (if dataSize = 0 then none else some ((body.drop (36 + loopCount * 24)).take dataSize))
    ((List.range loopCount).map (fun i => loopUnpackAt body (36 + 24 * i)))
    (readU32LE body 0) (readU32LE body 4) (readU32LE body 12) (readU32LE body 16)
    (readU32LE body 20) (readU32LE body 24)

/-- Model of `ListChunk_ADTL_LABL.unpack`: cue id, then the bytes after offset 4 up
to the first zero byte (or to the end of the view when there is none —
`indexOf` returns −1 and the slice is kept whole; `List.indexOf` returns the
length in that case, so `take` keeps the whole list too), decoded as UTF-8. -/
def lablUnpack (body : List Nat) : Chunk :=
  let bytes := body.drop 4
  Chunk.labl (readU32LE body 0) (utf8Decode (bytes.take (bytes.indexOf 0)))

/-- The `ListChunk_ADTL.chunkRegistry` dispatch: only `labl` is registered;
other tags fall back to `UnknownChunk`. -/
def adtlItemUnpack (tag : Nat) (body : List Nat) : Chunk :=
  if tag = TagLABL then lablUnpack body else .unknown tag body

/-- The item loop of `ListChunk_ADTL.unpack`: read an 8-byte header, decode
`chunkSize` bytes through the ADTL registry, advance, and skip one byte when
the new cursor is odd.  Bounds checks model the places where JS throws: the
header reads are bounded by the view, and the `DataView` slice for the item
is modelled as bounded by the view (the source bounds it against the whole
backing buffer; for exact, well-formed sizes the two agree).  Fuel exceeds
the worst-case iteration count (each iteration consumes ≥ 8 bytes). -/
def adtlLoop (body : List Nat) : Nat → Nat → Except String (List Chunk)
  | 0, _ => .error "out of fuel"
  | fuel + 1, idx =>
    if idx < body.length then
      if body.length < idx + 8 then .error "header read out of range"
      else
        let ctag := readU32BE body idx
        let csize := readU32LE body (idx + 4)
        if body.length < idx + 8 + csize then .error "chunk view out of range"
        else
          let item := adtlItemUnpack ctag ((body.drop (idx + 8)).take csize)
          let nidx := idx + 8 + csize
          match adtlLoop body fuel (if nidx % 2 = 1 then nidx + 1 else nidx) with
          | .ok items => .ok (item :: items)
          | .error e => .error e
    else .ok []

/-- Model of `ListChunk_ADTL.unpack`. -/
def adtlUnpack (body : List Nat) : Except String Chunk :=
  (adtlLoop body (body.length + 1) 0).map Chunk.adtl

/-- The `ListChunk.chunkRegistry` dispatch: only `adtl` is registered;
other body tags fall back to `UnknownChunk`. -/
def listBodyUnpack (btag : Nat) (bview : List Nat) : Except String Chunk :=
  if btag = TagADTL then (adtlUnpack bview).map Chunk.list
  else .ok (.list (.unknown btag bview))

/-- Model of `ListChunk.unpack`: body tag at offset 0 (big-endian), body view over
the remaining `byteLength - 4` bytes.  A view shorter than 4 bytes makes the
source throw (negative view length / out-of-range read). -/
def listUnpack (body : List Nat) : Except String Chunk :=
  if body.length < 4 then .error "list body out of range"
  else listBodyUnpack (readU32BE body 0) (body.drop 4)

/-- The `Wave.chunkRegistry` dispatch over top-level tags, with the
`UnknownChunk` fallback. -/
def topUnpack (tag : Nat) (body : List Nat) : Except String Chunk :=
  if tag = TagFMT then .ok (fmtUnpack body)
  else if tag = TagDATA then .ok (.data body)
  else if tag = TagCUE then .ok (cueUnpack body)
  else if tag = TagSMPL then .ok (smplUnpack body)
  else if tag = TagLIST then listUnpack body
  else .ok (.unknown tag body)

/-- One top-level chunk as emitted by `Wave.encode`: 8-byte header, body,
then one zero pad byte when the body length is odd.  In the source the
cursor starts at 12 and each block below has even length, so the cursor is
even at every chunk start and the `if (idx & 1) idx++` pad fires exactly
when `chunk.length()` is odd. -/
def chunkBlock (c : Chunk) : List Nat :=
  u32BE (chunkTag c) ++ u32LE (chunkLength c) ++ packBody c ++
    (if chunkLength c % 2 = 1 then [0] else [])

def encodeBody : List Chunk → List Nat
  | [] => []
  | c :: cs => chunkBlock c ++ encodeBody cs

/-- Model of `Wave.encode`: `RIFF`, the u32 little-endian value `fileLength - 8`
(`setUint32` wraps mod 2^32, which `u32LE` reproduces), `WAVE`, then the
chunk blocks.  The cumulative `fileLength` computation of the source equals
`12 + (encodeBody chunks).length` because each block already carries its own
pad byte. -/
def encodeWave (cs : List Chunk) : List Nat :=
  u32BE TagRIFF ++ u32LE ((encodeBody cs).length + 4) ++ u32BE TagWAVE ++ encodeBody cs

mutual

/-- Whether packing a chunk throws, given the number `after` of buffer
bytes that follow the chunk's body view inside the whole encode buffer.
`ListChunk_ADTL_LABL.pack` writes the label through
`new Uint8Array(into.buffer, into.byteOffset + 4, into.byteLength)` — a
view that starts 4 bytes into the labl body but keeps the full body
length, reaching 4 bytes past the body's end — and the typed-array
constructor raises a `RangeError` when `byteOffset + length` exceeds the
buffer size, i.e. exactly when `after < 4`.  A LIST's body view ends flush
with the LIST's own view, so the slack is unchanged; an ADTL item is
followed by the remaining items (whose cursor sizes `8 + length()` come
from the headers the pack loop writes) and then the ADTL's own slack.  No
other pack method can overrun: every other class writes through views cut
to exactly its own body (their `set` targets fit their `length()`). -/
def packThrows : Chunk → Nat → Bool
  | .labl _ _, after => decide (after < 4)
  | .adtl cs, after => adtlItemsThrow cs after
  | .list b, after => packThrows b after
  | _, _ => false

/-- Per-item slack accounting for the `ListChunk_ADTL.pack` loop. -/
def adtlItemsThrow : List Chunk → Nat → Bool
  | [], _ => false
  | c :: cs, after => packThrows c (adtlLenSum cs + after) || adtlItemsThrow cs after

end

/-- Cursor footprint of a chunk list inside `Wave.encode`'s buffer: for
each chunk an 8-byte header, `length()` body bytes, and a pad byte when the
body length is odd (the cumulative `fileLength` rule of the source). -/
def blocksLen : List Chunk → Nat
  | [] => 0
  | c :: cs => 8 + chunkLength c + chunkLength c % 2 + blocksLen cs

/-- Whether `Wave.encode` throws on a wave: some chunk's pack overruns the
buffer.  After a chunk's body come its own pad byte and the blocks of the
remaining chunks; the buffer ends right after the last block. -/
def chunksThrow : List Chunk → Bool
  | [] => false
  | c :: cs => packThrows c (chunkLength c % 2 + blocksLen cs) || chunksThrow cs

/-- Model of `Wave.encode` including its error path: the `RangeError`
raised inside `ListChunk_ADTL_LABL.pack` (its oversized `Uint8Array` view)
whenever a labl body ends within 4 bytes of the buffer end — under
validity, exactly when the final chunk is a LIST/ADTL whose last item is a
labl.  On every other input it returns the bytes of `encodeWave`. -/
def encodeWaveE (cs : List Chunk) : Except String (List Nat) :=
  if chunksThrow cs then .error "RangeError: Invalid typed array length"
  else .ok (encodeWave cs)

/-- The chunk loop of `Wave.decode`: runs while `idx < fileLength` (the
*declared* length, i.e. the stored `total - 8`), reads an 8-byte header,
decodes `chunkLength` bytes through the top-level registry, advances, and
skips one byte when the cursor is odd.  Bounds checks model the JS
`DataView` reads and slices against the buffer.  Fuel exceeds the iteration
count (each iteration consumes ≥ 8 bytes of the buffer). -/
def decodeLoop (buf : List Nat) (fileLen : Nat) : Nat → Nat → Except String (List Chunk)
  | 0, _ => .error "out of fuel"
  | fuel + 1, idx =>
    if idx < fileLen then
      if buf.length < idx + 8 then .error "header read out of range"
      else
        let ctag := readU32BE buf idx
        let csize := readU32LE buf (idx + 4)
        if buf.length < idx + 8 + csize then .error "chunk view out of range"
        else
          match topUnpack ctag ((buf.drop (idx + 8)).take csize) with
          | .error e => .error e
          | .ok c =>
            let nidx := idx + 8 + csize
            match decodeLoop buf fileLen fuel (if nidx % 2 = 1 then nidx + 1 else nidx) with
            | .ok chunks => .ok (c :: chunks)
            | .error e => .error e
    else .ok []

/-- Model of `Wave.decode`: magic checks in source order (each `getUint32` read is
bounded — JS throws on a short buffer, modelled by the length guards), the
declared-length check, then the chunk loop from offset 12. -/
def decodeWave (buf : List Nat) : Except String (List Chunk) :=
  if buf.length < 4 then .error "header read out of range"
  else if readU32BE buf 0 ≠ TagRIFF then .error "Invalid magic string (RIFF)!"
  else if buf.length < 12 then .error "header read out of range"
  else if readU32BE buf 8 ≠ TagWAVE then .error "Invalid magic string (WAVE)!"
  else if buf.length < readU32LE buf 4 + 8 then
    .error "Invalid file length! (Bigger than buffer.)"
  else decodeLoop buf (readU32LE buf 4) (buf.length + 1) 12

/-- The scan loop shared by `Wave.getChunk` and `Wave.removeChunk`: first
chunk whose `tag` matches, else nothing. -/
def removeChunkLoop (tag : Nat) : List Chunk → Option Chunk
  | [] => none
  | c :: cs => if chunkTag c = tag then some c else removeChunkLoop tag cs

/-- Model of `Wave.removeChunk` as a state transformer on `this.chunks`: the method
body only reads `this.chunks[i]` and returns; it contains no splice or
reassignment, so the chunk list after the call is the input list. -/
def removeChunk (chunks : List Chunk) (tag : Nat) : Option Chunk × List Chunk :=
  (removeChunkLoop tag chunks, chunks)

/-- Signed reading of an `Int16Array` element from two little-endian bytes. -/
def toInt16 (v : Nat) : Int := if v < 32768 then (v : Int) else (v : Int) - 65536

/-- Signed reading of an `Int32Array` element from four little-endian bytes. -/
def toInt32 (v : Nat) : Int :=
  if v < 2147483648 then (v : Int) else (v : Int) - 4294967296

/-- Model of `DataChunk.reinterpret(bits)`: 8 returns the payload itself (an unsigned
`Uint8Array`); 16/32 return typed-array views of `floor(byteLength / w)`
signed little-endian elements over the same backing memory; anything else
throws.  The views are modelled by their element values. -/
def reinterpret (d : List Nat) (bits : Nat) : Except String (List Int) :=
  if bits = 8 then .ok (d.map (fun b => (b : Int)))
  else if bits = 16 then
    .ok ((List.range (d.length / 2)).map (fun i => toInt16 (readU16LE d (2 * i))))
  else if bits = 32 then
    .ok ((List.range (d.length / 4)).map (fun i => toInt32 (readU32LE d (4 * i))))
  else .error "Cannot reinterpret to bit depth!"

/-- Extension-bytes field of a format chunk (for stating claims). -/
def fmtExtra : Chunk → Option (List Nat)
  | .format _ _ _ _ _ _ e => e
  | _ => none

def isErr {α : Type} : Except String α → Bool
  | .error _ => true
  | .ok _ => false

/-- Decoding context: which registry governs a chunk's tag. -/
inductive Ctx : Type where
  | top
  | listBody
  | adtlItem

def bytesOk (l : List Nat) : Bool := l.all (fun b => decide (b < 256))

def validCue (c : CueRec) : Bool :=
  decide (c.id < 4294967296) && decide (c.position < 4294967296) &&
    decide (c.chunkId < 4294967296) && decide (c.chunkStart < 4294967296) &&
    decide (c.blockStart < 4294967296) && decide (c.sampleOffset < 4294967296)

def validLoop (s : LoopRec) : Bool :=
  decide (s.id < 4294967296) && decide (s.type < 4294967296) &&
    decide (s.start < 4294967296) && decide (s.endPos < 4294967296) &&
    decide (s.fraction < 4294967296) && decide (s.playCount < 4294967296)

mutual

/-- Structural validity of a chunk in a decoding context: every numeric
field fits its wire width, payload bytes are bytes, the `FormatChunk`
extension invariant holds (extension present exactly when
`compressionCode > 1`), sampler data is absent rather than empty (the wire
cannot distinguish the two, and decode returns the canonical form), an
`UnknownChunk`'s tag is not registered in the governing registry (a
registered tag would decode as the registered class), `labl` labels are
NUL-free ASCII (so the UTF-8 byte count agrees with the UTF-16 count used by
`length()` and the encoded label fits its view), and every non-final ADTL
item has an even body length (the pack loop writes no pad bytes, so an odd
item would desynchronise the pad-skipping unpack loop). -/
def validChunk : Ctx → Chunk → Bool
  | .top, .format cc ch sr ab ba bits extra =>
      decide (cc < 65536) && decide (ch < 65536) && decide (sr < 4294967296) &&
        decide (ab < 4294967296) && decide (ba < 65536) && decide (bits < 65536) &&
        (match extra with
         | none => decide (cc ≤ 1)
         | some e => decide (1 < cc) && decide (e.length < 65536) && bytesOk e)
  | .top, .data d => bytesOk d && decide (d.length < 4294967296)
  | .top, .cue cues => cues.all validCue && decide (4 + cues.length * 24 < 4294967296)
  | .top, .smpl sp sd loops man prod note frac sfmt soff =>
      decide (sp < 4294967296) && decide (man < 4294967296) &&
        decide (prod < 4294967296) && decide (note < 4294967296) &&
        decide (frac < 4294967296) && decide (sfmt < 4294967296) &&
        decide (soff < 4294967296) && loops.all validLoop &&
        (match sd with
         | none => true
         | some dd => !dd.isEmpty && bytesOk dd) &&
        decide (36 + loops.length * 24 + (sd.getD []).length < 4294967296)
  | .top, .list b => validChunk .listBody b && decide (4 + chunkLength b < 4294967296)
  | .top, .unknown t d =>
      decide (t < 4294967296) && decide (t ≠ TagFMT) && decide (t ≠ TagDATA) &&
        decide (t ≠ TagCUE) && decide (t ≠ TagSMPL) && decide (t ≠ TagLIST) &&
        bytesOk d && decide (d.length < 4294967296)
  | .top, _ => false
  | .listBody, .adtl cs => validAdtlItems cs
  | .listBody, .unknown t d => decide (t < 4294967296) && decide (t ≠ TagADTL) && bytesOk d
  | .listBody, _ => false
  | .adtlItem, .labl id label =>
      decide (id < 4294967296) && label.all (fun c => decide (0 < c) && decide (c < 128)) &&
        decide (label.length + 7 < 4294967296)
  | .adtlItem, .unknown t d =>
      decide (t < 4294967296) && decide (t ≠ TagLABL) && bytesOk d &&
        decide (d.length < 4294967296)
  | .adtlItem, _ => false

/-- Validity of an ADTL item sequence: all items valid, and every item
except possibly the last of even body length. -/
def validAdtlItems : List Chunk → Bool
  | [] => true
  | [c] => validChunk .adtlItem c
  | c :: cs => validChunk .adtlItem c && decide (chunkLength c % 2 = 0) && validAdtlItems cs

end

/-- Structural validity of a whole `Wave`: every chunk valid for the
top-level registry, and the encoded size small enough that the u32 length
field at offset 4 does not wrap. -/
def validWave (cs : List Chunk) : Bool :=
  cs.all (validChunk .top) && decide ((encodeBody cs).length + 4 < 4294967296)

/-- The final chunk (if any) has a nonzero body length. -/
def lastNonzeroB (cs : List Chunk) : Bool :=
  match cs.getLast? with
  | none => true
  | some c => decide (chunkLength c ≠ 0)

/-- A sample wave exercising every chunk variant. -/
def demoWave : List Chunk :=
  [Chunk.format 1 2 44100 176400 4 16 none,
   Chunk.cue [⟨1, 2, 3, 4, 5, 6⟩],
   Chunk.smpl 10 (some [9, 9]) [⟨1, 0, 0, 99, 0, 0⟩] 0 0 0 0 0 0,
   Chunk.list (Chunk.adtl [Chunk.labl 1 [104, 105], Chunk.unknown 0x49415254 [66, 67]]),
   Chunk.unknown 0x58595A20 [7],
   Chunk.data [1, 2, 3]]

/-- An ADTL item list whose first item has an odd body length. -/
def adtlOddItems : List Chunk :=
  [Chunk.unknown 0x494B4559 [0x41], Chunk.unknown 0x49415254 [0x42, 0x43]]

/-- A structurally valid wave whose final chunk is a LIST/ADTL ending in a
labl item: its encoded buffer is 40 bytes with the labl body ending flush
at the buffer end, the configuration in which `ListChunk_ADTL_LABL.pack`'s
oversized view makes the JS encoder throw. -/
def lablEndWave : List Chunk := [Chunk.list (Chunk.adtl [Chunk.labl 1 [104, 105]])]

/-- The spec's extended-format scenario: PCM fields with compressionCode 2
and a 2-byte extension `AB CD`. -/
def fmtExtBody : List Nat :=
  [0x02, 0x00, 0x02, 0x00, 0x44, 0xAC, 0x00, 0x00, 0x10, 0xB1, 0x02, 0x00,
   0x04, 0x00, 0x10, 0x00, 0x02, 0x00, 0xAB, 0xCD]

/-! ## Byte-level lemmas -/

theorem byteAt_cons_succ (b : Nat) (l : List Nat) (n : Nat) :
    byteAt (b :: l) (n + 1) = byteAt l n := rfl

theorem byteAt_append_right (xs r : List Nat) (k : Nat) :
    byteAt (xs ++ r) (xs.length + k) = byteAt r k := by
  induction xs with
  | nil => simp [byteAt]
  | cons x xs ih =>
    have h : (x :: xs).length + k = (xs.length + k) + 1 := by simp; omega
    rw [List.cons_append, h, byteAt_cons_succ, ih]

theorem byteAt_drop (l : List Nat) (i k : Nat) : byteAt (l.drop i) k = byteAt l (i + k) := by
  induction i generalizing l with
  | zero => simp
  | succ i ih =>
    cases l with
    | nil => simp [byteAt]
    | cons x l =>
      have h : i + 1 + k = (i + k) + 1 := by omega
      rw [List.drop_succ_cons, ih, h, byteAt_cons_succ]

theorem readU16LE_append (pre l : List Nat) (k : Nat) :
    readU16LE (pre ++ l) (pre.length + k) = readU16LE l k := by
  simp [readU16LE, Nat.add_assoc, byteAt_append_right]

theorem readU32LE_append (pre l : List Nat) (k : Nat) :
    readU32LE (pre ++ l) (pre.length + k) = readU32LE l k := by
  simp [readU32LE, Nat.add_assoc, byteAt_append_right]

theorem readU32BE_append (pre l : List Nat) (k : Nat) :
    readU32BE (pre ++ l) (pre.length + k) = readU32BE l k := by
  simp [readU32BE, Nat.add_assoc, byteAt_append_right]

theorem readU16LE_drop (l : List Nat) (i k : Nat) :
    readU16LE (l.drop i) k = readU16LE l (i + k) := by
  simp [readU16LE, Nat.add_assoc, byteAt_drop]

theorem readU32LE_drop (l : List Nat) (i k : Nat) :
    readU32LE (l.drop i) k = readU32LE l (i + k) := by
  simp [readU32LE, Nat.add_assoc, byteAt_drop]

theorem readU32BE_drop (l : List Nat) (i k : Nat) :
    readU32BE (l.drop i) k = readU32BE l (i + k) := by
  simp [readU32BE, Nat.add_assoc, byteAt_drop]

/-- Normal form of a 16-bit little-endian read-back. -/
def r16 (a : Nat) : Nat := a % 256 + 256 * (a / 256 % 256)

/-- Normal form of a 32-bit little-endian read-back. -/
def r32 (a : Nat) : Nat :=
  a % 256 + 256 * (a / 256 % 256) + 65536 * (a / 65536 % 256) +
    16777216 * (a / 16777216 % 256)

/-- Normal form of a 32-bit big-endian read-back. -/
def r32be (a : Nat) : Nat :=
  16777216 * (a / 16777216 % 256) + 65536 * (a / 65536 % 256) +
    256 * (a / 256 % 256) + a % 256

theorem r16_eq (a : Nat) (h : a < 65536) : r16 a = a := by unfold r16; omega

theorem r32_eq (a : Nat) (h : a < 4294967296) : r32 a = a := by unfold r32; omega

theorem r32be_eq (a : Nat) (h : a < 4294967296) : r32be a = a := by unfold r32be; omega

theorem readU16LE_pack (a : Nat) (r : List Nat) (h : a < 65536) :
    readU16LE (u16LE a ++ r) 0 = a := by
  have hr : readU16LE (u16LE a ++ r) 0 = r16 a := rfl
  rw [hr, r16_eq a h]

theorem readU32LE_pack (a : Nat) (r : List Nat) (h : a < 4294967296) :
    readU32LE (u32LE a ++ r) 0 = a := by
  have hr : readU32LE (u32LE a ++ r) 0 = r32 a := rfl
  rw [hr, r32_eq a h]

theorem readU32BE_pack (a : Nat) (r : List Nat) (h : a < 4294967296) :
    readU32BE (u32BE a ++ r) 0 = a := by
  have hr : readU32BE (u32BE a ++ r) 0 = r32be a := rfl
  rw [hr, r32be_eq a h]

theorem u16LE_length (a : Nat) : (u16LE a).length = 2 := rfl
theorem u32LE_length (a : Nat) : (u32LE a).length = 4 := rfl
theorem u32BE_length (a : Nat) : (u32BE a).length = 4 := rfl

theorem evenUp_ge (n : Nat) : n ≤ evenUp n := by unfold evenUp; split <;> omega
theorem evenUp_le (n : Nat) : evenUp n ≤ n + 1 := by unfold evenUp; split <;> omega
theorem evenUp_even (n : Nat) : evenUp n % 2 = 0 := by unfold evenUp; split <;> omega

/-! ## ASCII text lemmas -/

theorem utf8Encode_ascii (l : List Nat) (h : ∀ c ∈ l, c < 128) : utf8Encode l = l := by
  induction l with
  | nil => rfl
  | cons c l ih =>
    have hc : c < 128 := h c (by simp)
    have hch : utf8Char c = [c] := by unfold utf8Char; rw [if_pos hc]
    simp [utf8Encode, hch, ih (fun x hx => h x (by simp [hx]))]

theorem utf8Len_ascii (l : List Nat) (h : ∀ c ∈ l, c < 128) : utf8Len l = l.length := by
  unfold utf8Len; rw [utf8Encode_ascii l h]

theorem utf16Len_ascii (l : List Nat) (h : ∀ c ∈ l, c < 128) : utf16Len l = l.length := by
  induction l with
  | nil => rfl
  | cons c l ih =>
    have hc : c < 128 := h c (by simp)
    have : (if c < 65536 then 1 else 2) = 1 := by rw [if_pos (by omega)]
    simp only [utf16Len, this, ih (fun x hx => h x (by simp [hx])), List.length_cons]
    omega

theorem utf8DecodeF_ascii (fuel : Nat) (l : List Nat) (hfuel : l.length ≤ fuel)
    (h : ∀ c ∈ l, c < 128) : utf8DecodeF fuel l = l := by
  induction fuel generalizing l with
  | zero =>
    cases l with
    | nil => rfl
    | cons c l => exact absurd hfuel (by simp [List.length_cons])
  | succ fuel ih =>
    cases l with
    | nil => rfl
    | cons c l =>
      have hc : c < 128 := h c (by simp)
      simp only [utf8DecodeF, if_pos hc]
      rw [ih l (by simp at hfuel; omega) (fun x hx => h x (by simp [hx]))]

theorem utf8Decode_ascii (l : List Nat) (h : ∀ c ∈ l, c < 128) : utf8Decode l = l :=
  utf8DecodeF_ascii l.length l (Nat.le_refl _) h

/-- The first zero byte in `label ++ 0 :: tail` when the label has no zero
byte is at the label's length. -/
theorem indexOf_zero_append (label tail : List Nat) (h : ∀ c ∈ label, 0 < c) :
    (label ++ 0 :: tail).indexOf 0 = label.length := by
  induction label with
  | nil => simp [List.indexOf_cons]
  | cons c l ih =>
    have hc : 0 < c := h c (by simp)
    have hne : (c == 0) = false := by simp; omega
    simp only [List.cons_append, List.indexOf_cons, hne, cond_false,
      ih (fun x hx => h x (by simp [hx]))]
    simp

/-! ## Pack length agrees with the length() methods (on valid chunks) -/

theorem packCue_length (c : CueRec) : (packCue c).length = 24 := rfl
theorem packLoop_length (s : LoopRec) : (packLoop s).length = 24 := rfl

theorem packCues_length (cs : List CueRec) : (packCues cs).length = cs.length * 24 := by
  induction cs with
  | nil => rfl
  | cons c cs ih => simp [packCues, packCue_length, ih]; omega

theorem packLoops_length (ss : List LoopRec) : (packLoops ss).length = ss.length * 24 := by
  induction ss with
  | nil => rfl
  | cons s ss ih => simp [packLoops, packLoop_length, ih]; omega

/-- An ASCII, NUL-free label as recorded by the ADTL-item validity test. -/
theorem labl_valid_ascii (label : List Nat)
    (h : label.all (fun c => decide (0 < c) && decide (c < 128)) = true) :
    ∀ c ∈ label, 0 < c ∧ c < 128 := by
  intro c hc
  have := List.all_eq_true.mp h c hc
  simpa using this

theorem packBody_length_adtlItem (c : Chunk) (h : validChunk .adtlItem c = true) :
    (packBody c).length = chunkLength c := by
  cases c with
  | labl id label =>
    have hascii := labl_valid_ascii label (by
      simp only [validChunk, Bool.and_eq_true] at h
      exact h.1.2)
    have h8 : utf8Encode label = label := utf8Encode_ascii label (fun c hc => (hascii c hc).2)
    have h16 : utf16Len label = label.length :=
      utf16Len_ascii label (fun c hc => (hascii c hc).2)
    simp only [packBody, chunkLength, utf8Len, h8, h16, List.length_append,
      u32LE_length, List.length_replicate]
    have g1 := evenUp_ge (4 + label.length + 1)
    have g2 := evenUp_le (4 + label.length + 1)
    omega
  | unknown t d => rfl
  | format cc ch sr ab ba bits extra => simp [validChunk] at h
  | cue cues => simp [validChunk] at h
  | smpl sp sd loops man prod note frac sfmt soff => simp [validChunk] at h
  | adtl cs => simp [validChunk] at h
  | list b => simp [validChunk] at h
  | data d => simp [validChunk] at h

theorem validAdtlItems_cons (c : Chunk) (cs : List Chunk)
    (h : validAdtlItems (c :: cs) = true) :
    validChunk .adtlItem c = true ∧ validAdtlItems cs = true := by
  cases cs with
  | nil => exact ⟨h, rfl⟩
  | cons c' cs' =>
    simp only [validAdtlItems, Bool.and_eq_true] at h
    exact ⟨h.1.1, h.2⟩

theorem packAdtlItems_length (cs : List Chunk) (h : validAdtlItems cs = true) :
    (packAdtlItems cs).length = adtlLenSum cs := by
  induction cs with
  | nil => rfl
  | cons c cs ih =>
    obtain ⟨h1, h2⟩ := validAdtlItems_cons c cs h
    simp only [packAdtlItems, adtlLenSum, List.length_append, u32BE_length, u32LE_length,
      packBody_length_adtlItem c h1, ih h2]

theorem packBody_length_listBody (b : Chunk) (h : validChunk .listBody b = true) :
    (packBody b).length = chunkLength b := by
  cases b with
  | adtl cs => exact packAdtlItems_length cs (by simpa [validChunk] using h)
  | unknown t d => rfl
  | format cc ch sr ab ba bits extra => simp [validChunk] at h
  | cue cues => simp [validChunk] at h
  | smpl sp sd loops man prod note frac sfmt soff => simp [validChunk] at h
  | labl id label => simp [validChunk] at h
  | list b => simp [validChunk] at h
  | data d => simp [validChunk] at h

theorem packBody_length_top (c : Chunk) (h : validChunk .top c = true) :
    (packBody c).length = chunkLength c := by
  cases c with
  | unknown t d => rfl
  | data d => rfl
  | format cc ch sr ab ba bits extra =>
    cases extra with
    | none =>
      have hcc : cc ≤ 1 := by
        simp only [validChunk, Bool.and_eq_true, decide_eq_true_eq] at h
        exact h.2
      simp only [packBody, chunkLength, if_neg (by omega : ¬ 1 < cc), if_pos hcc]
      rfl
    | some e =>
      have hcc : 1 < cc := by
        simp only [validChunk, Bool.and_eq_true, decide_eq_true_eq] at h
        exact h.2.1.1
      simp only [packBody, chunkLength, if_pos hcc, if_neg (by omega : ¬ cc ≤ 1)]
      simp [u16LE_length, u32LE_length, Option.getD]
      omega
  | cue cues =>
    simp only [packBody, chunkLength, List.length_append, u32LE_length, packCues_length]
  | smpl sp sd loops man prod note frac sfmt soff =>
    simp only [packBody, chunkLength, List.length_append, u32LE_length, packLoops_length]
  | labl id label => simp [validChunk] at h
  | adtl cs => simp [validChunk] at h
  | list b =>
    have hb : validChunk .listBody b = true := by
      simp only [validChunk, Bool.and_eq_true] at h
      exact h.1
    simp only [packBody, chunkLength, List.length_append, u32BE_length,
      packBody_length_listBody b hb]

/-! ## Decode of a packed chunk recovers the chunk -/

theorem readU32LE_after_tag (t : Nat) (r : List Nat) :
    readU32LE (u32BE t ++ r) 4 = readU32LE r 0 := rfl

theorem readU32BE_after_hdr (a m t : Nat) (r : List Nat) :
    readU32BE (u32BE a ++ (u32LE m ++ (u32BE t ++ r))) 8 = readU32BE (u32BE t ++ r) 0 := rfl

theorem drop4_tag (t : Nat) (r : List Nat) : (u32BE t ++ r).drop 4 = r := rfl

theorem drop8_hdr (t m : Nat) (r : List Nat) :
    (u32BE t ++ (u32LE m ++ r)).drop 8 = r := rfl

theorem drop12_riff (m : Nat) (r : List Nat) :
    (u32BE TagRIFF ++ (u32LE m ++ (u32BE TagWAVE ++ r))).drop 12 = r := rfl

theorem readU32BE_at (l : List Nat) (i : Nat) : readU32BE l i = readU32BE (l.drop i) 0 := by
  have h := readU32BE_drop l i 0
  simpa using h.symm

theorem readU32LE_at4 (l : List Nat) (i : Nat) :
    readU32LE l (i + 4) = readU32LE (l.drop i) 4 := (readU32LE_drop l i 4).symm

theorem fmtUnpack_pack (cc ch sr ab ba bits : Nat) (extra : Option (List Nat))
    (h : validChunk .top (.format cc ch sr ab ba bits extra) = true) :
    fmtUnpack (packBody (.format cc ch sr ab ba bits extra)) =
      .format cc ch sr ab ba bits extra := by
  cases extra with
  | none =>
    simp only [validChunk, Bool.and_eq_true, decide_eq_true_eq] at h
    obtain ⟨⟨⟨⟨⟨⟨hcc, hch⟩, hsr⟩, hab⟩, hba⟩, hbits⟩, hle⟩ := h
    have e0 : readU16LE (packBody (.format cc ch sr ab ba bits none)) 0 = r16 cc := rfl
    have e2 : readU16LE (packBody (.format cc ch sr ab ba bits none)) 2 = r16 ch := rfl
    have e4 : readU32LE (packBody (.format cc ch sr ab ba bits none)) 4 = r32 sr := rfl
    have e8 : readU32LE (packBody (.format cc ch sr ab ba bits none)) 8 = r32 ab := rfl
    have e12 : readU16LE (packBody (.format cc ch sr ab ba bits none)) 12 = r16 ba := rfl
    have e14 : readU16LE (packBody (.format cc ch sr ab ba bits none)) 14 = r16 bits := rfl
    simp only [fmtUnpack, e0, e2, e4, e8, e12, e14, r16_eq cc hcc, r16_eq ch hch,
      r32_eq sr hsr, r32_eq ab hab, r16_eq ba hba, r16_eq bits hbits]
    rw [if_neg (by omega : ¬ 1 < cc)]
  | some e =>
    simp only [validChunk, Bool.and_eq_true, decide_eq_true_eq] at h
    obtain ⟨⟨⟨⟨⟨⟨hcc, hch⟩, hsr⟩, hab⟩, hba⟩, hbits⟩, ⟨hgt, helen⟩, hbytes⟩ := h
    have hpack : packBody (.format cc ch sr ab ba bits (some e)) =
        u16LE cc ++ u16LE ch ++ u32LE sr ++ u32LE ab ++ u16LE ba ++ u16LE bits ++
          (u16LE e.length ++ e) := by
      simp only [packBody, if_pos hgt]
      rfl
    have e0 : readU16LE (u16LE cc ++ u16LE ch ++ u32LE sr ++ u32LE ab ++ u16LE ba ++
        u16LE bits ++ (u16LE e.length ++ e)) 0 = r16 cc := rfl
    have e2 : readU16LE (u16LE cc ++ u16LE ch ++ u32LE sr ++ u32LE ab ++ u16LE ba ++
        u16LE bits ++ (u16LE e.length ++ e)) 2 = r16 ch := rfl
    have e4 : readU32LE (u16LE cc ++ u16LE ch ++ u32LE sr ++ u32LE ab ++ u16LE ba ++
        u16LE bits ++ (u16LE e.length ++ e)) 4 = r32 sr := rfl
    have e8 : readU32LE (u16LE cc ++ u16LE ch ++ u32LE sr ++ u32LE ab ++ u16LE ba ++
        u16LE bits ++ (u16LE e.length ++ e)) 8 = r32 ab := rfl
    have e12 : readU16LE (u16LE cc ++ u16LE ch ++ u32LE sr ++ u32LE ab ++ u16LE ba ++
        u16LE bits ++ (u16LE e.length ++ e)) 12 = r16 ba := rfl
    have e14 : readU16LE (u16LE cc ++ u16LE ch ++ u32LE sr ++ u32LE ab ++ u16LE ba ++
        u16LE bits ++ (u16LE e.length ++ e)) 14 = r16 bits := rfl
    have e16 : readU16LE (u16LE cc ++ u16LE ch ++ u32LE sr ++ u32LE ab ++ u16LE ba ++
        u16LE bits ++ (u16LE e.length ++ e)) 16 = r16 e.length := rfl
    have d18 : (u16LE cc ++ u16LE ch ++ u32LE sr ++ u32LE ab ++ u16LE ba ++
        u16LE bits ++ (u16LE e.length ++ e)).drop 18 = e := rfl
    simp only [fmtUnpack, hpack, e0, e2, e4, e8, e12, e14, e16, d18, r16_eq cc hcc,
      r16_eq ch hch, r32_eq sr hsr, r32_eq ab hab, r16_eq ba hba, r16_eq bits hbits,
      r16_eq e.length helen]
    rw [if_pos hgt, List.take_length]

theorem cueUnpackAt_append (pre l : List Nat) (k : Nat) :
    cueUnpackAt (pre ++ l) (pre.length + k) = cueUnpackAt l k := by
  simp [cueUnpackAt, Nat.add_assoc, readU32LE_append]

theorem cueUnpackAt_pack (c : CueRec) (r : List Nat) (hv : validCue c = true) :
    cueUnpackAt (packCue c ++ r) 0 = c := by
  simp only [validCue, Bool.and_eq_true, decide_eq_true_eq] at hv
  obtain ⟨⟨⟨⟨⟨h1, h2⟩, h3⟩, h4⟩, h5⟩, h6⟩ := hv
  have e : cueUnpackAt (packCue c ++ r) 0 =
      ⟨r32 c.id, r32 c.position, r32 c.chunkId, r32 c.chunkStart, r32 c.blockStart,
        r32 c.sampleOffset⟩ := rfl
  rw [e, r32_eq _ h1, r32_eq _ h2, r32_eq _ h3, r32_eq _ h4, r32_eq _ h5, r32_eq _ h6]

theorem cueRecords_read (cues : List CueRec) (pre r : List Nat)
    (hv : cues.all validCue = true) :
    (List.range cues.length).map
      (fun i => cueUnpackAt (pre ++ (packCues cues ++ r)) (pre.length + 24 * i)) = cues := by
  induction cues generalizing pre with
  | nil => simp
  | cons c cs ih =>
    have hc : validCue c = true := (List.all_eq_true.mp hv c (by simp))
    have hcs : cs.all validCue = true :=
      List.all_eq_true.mpr (fun x hx => List.all_eq_true.mp hv x (by simp [hx]))
    rw [List.length_cons, List.range_succ_eq_map, List.map_cons, List.map_map]
    have hassoc : pre ++ (packCues (c :: cs) ++ r) =
        pre ++ (packCue c ++ (packCues cs ++ r)) := by
      simp [packCues, List.append_assoc]
    have hhead : cueUnpackAt (pre ++ (packCues (c :: cs) ++ r)) (pre.length + 24 * 0) = c := by
      rw [hassoc]
      have h0 : pre.length + 24 * 0 = pre.length + 0 := by omega
      rw [h0, cueUnpackAt_append, cueUnpackAt_pack c _ hc]
    rw [hhead]
    have hstep : ∀ i ∈ List.range cs.length,
        ((fun i => cueUnpackAt (pre ++ (packCues (c :: cs) ++ r)) (pre.length + 24 * i)) ∘
          Nat.succ) i =
        cueUnpackAt ((pre ++ packCue c) ++ (packCues cs ++ r))
          ((pre ++ packCue c).length + 24 * i) := by
      intro i _
      simp only [Function.comp_apply]
      rw [hassoc, ← List.append_assoc]
      congr 1
      simp only [List.length_append, packCue_length]
      omega
    rw [List.map_congr_left hstep, ih (pre ++ packCue c) hcs]

theorem loopUnpackAt_append (pre l : List Nat) (k : Nat) :
    loopUnpackAt (pre ++ l) (pre.length + k) = loopUnpackAt l k := by
  simp [loopUnpackAt, Nat.add_assoc, readU32LE_append]

theorem loopUnpackAt_pack (s : LoopRec) (r : List Nat) (hv : validLoop s = true) :
    loopUnpackAt (packLoop s ++ r) 0 = s := by
  simp only [validLoop, Bool.and_eq_true, decide_eq_true_eq] at hv
  obtain ⟨⟨⟨⟨⟨h1, h2⟩, h3⟩, h4⟩, h5⟩, h6⟩ := hv
  have e : loopUnpackAt (packLoop s ++ r) 0 =
      ⟨r32 s.id, r32 s.type, r32 s.start, r32 s.endPos, r32 s.fraction,
        r32 s.playCount⟩ := rfl
  rw [e, r32_eq _ h1, r32_eq _ h2, r32_eq _ h3, r32_eq _ h4, r32_eq _ h5, r32_eq _ h6]

theorem loopRecords_read (ss : List LoopRec) (pre r : List Nat)
    (hv : ss.all validLoop = true) :
    (List.range ss.length).map
      (fun i => loopUnpackAt (pre ++ (packLoops ss ++ r)) (pre.length + 24 * i)) = ss := by
  induction ss generalizing pre with
  | nil => simp
  | cons s ss ih =>
    have hc : validLoop s = true := (List.all_eq_true.mp hv s (by simp))
    have hcs : ss.all validLoop = true :=
      List.all_eq_true.mpr (fun x hx => List.all_eq_true.mp hv x (by simp [hx]))
    rw [List.length_cons, List.range_succ_eq_map, List.map_cons, List.map_map]
    have hassoc : pre ++ (packLoops (s :: ss) ++ r) =
        pre ++ (packLoop s ++ (packLoops ss ++ r)) := by
      simp [packLoops, List.append_assoc]
    have hhead : loopUnpackAt (pre ++ (packLoops (s :: ss) ++ r)) (pre.length + 24 * 0) = s := by
      rw [hassoc]
      have h0 : pre.length + 24 * 0 = pre.length + 0 := by omega
      rw [h0, loopUnpackAt_append, loopUnpackAt_pack s _ hc]
    rw [hhead]
    have hstep : ∀ i ∈ List.range ss.length,
        ((fun i => loopUnpackAt (pre ++ (packLoops (s :: ss) ++ r)) (pre.length + 24 * i)) ∘
          Nat.succ) i =
        loopUnpackAt ((pre ++ packLoop s) ++ (packLoops ss ++ r))
          ((pre ++ packLoop s).length + 24 * i) := by
      intro i _
      simp only [Function.comp_apply]
      rw [hassoc, ← List.append_assoc]
      congr 1
      simp only [List.length_append, packLoop_length]
      omega
    rw [List.map_congr_left hstep, ih (pre ++ packLoop s) hcs]

theorem cueUnpack_pack (cues : List CueRec)
    (h : validChunk .top (.cue cues) = true) :
    cueUnpack (packBody (.cue cues)) = .cue cues := by
  simp only [validChunk, Bool.and_eq_true, decide_eq_true_eq] at h
  obtain ⟨hv, hb⟩ := h
  have hn : cues.length < 4294967296 := by omega
  have hcount : readU32LE (u32LE cues.length ++ packCues cues) 0 = cues.length :=
    readU32LE_pack cues.length (packCues cues) hn
  have hr := cueRecords_read cues (u32LE cues.length) [] hv
  simp only [List.append_nil, u32LE_length] at hr
  show cueUnpack (u32LE cues.length ++ packCues cues) = .cue cues
  simp only [cueUnpack, hcount]
  exact congrArg Chunk.cue hr

set_option maxHeartbeats 1600000 in
theorem smplUnpack_pack (sp : Nat) (sd : Option (List Nat)) (loops : List LoopRec)
    (man prod note frac sfmt soff : Nat)
    (h : validChunk .top (.smpl sp sd loops man prod note frac sfmt soff) = true) :
    smplUnpack (packBody (.smpl sp sd loops man prod note frac sfmt soff)) =
      .smpl sp sd loops man prod note frac sfmt soff := by
  simp only [validChunk, Bool.and_eq_true, decide_eq_true_eq] at h
  obtain ⟨⟨⟨⟨⟨⟨⟨⟨⟨hsp, hman⟩, hprod⟩, hnote⟩, hfrac⟩, hsfmt⟩, hsoff⟩, hloops⟩, hsd⟩, htot⟩ := h
  have hn : loops.length < 4294967296 := by omega
  have hdl : (sd.getD []).length < 4294967296 := by omega
  have e8 : readU32LE (packBody (.smpl sp sd loops man prod note frac sfmt soff)) 8 =
      r32 sp := rfl
  have e0 : readU32LE (packBody (.smpl sp sd loops man prod note frac sfmt soff)) 0 =
      r32 man := rfl
  have e4 : readU32LE (packBody (.smpl sp sd loops man prod note frac sfmt soff)) 4 =
      r32 prod := rfl
  have e12 : readU32LE (packBody (.smpl sp sd loops man prod note frac sfmt soff)) 12 =
      r32 note := rfl
  have e16 : readU32LE (packBody (.smpl sp sd loops man prod note frac sfmt soff)) 16 =
      r32 frac := rfl
  have e20 : readU32LE (packBody (.smpl sp sd loops man prod note frac sfmt soff)) 20 =
      r32 sfmt := rfl
  have e24 : readU32LE (packBody (.smpl sp sd loops man prod note frac sfmt soff)) 24 =
      r32 soff := rfl
  have e28 : readU32LE (packBody (.smpl sp sd loops man prod note frac sfmt soff)) 28 =
      r32 loops.length := rfl
  have e32 : readU32LE (packBody (.smpl sp sd loops man prod note frac sfmt soff)) 32 =
      r32 (sd.getD []).length := rfl
  have hassoc : packBody (.smpl sp sd loops man prod note frac sfmt soff) =
      (u32LE man ++ (u32LE prod ++ (u32LE sp ++ (u32LE note ++ (u32LE frac ++ (u32LE sfmt ++
        (u32LE soff ++ (u32LE loops.length ++ u32LE (sd.getD []).length)))))))) ++
        (packLoops loops ++ sd.getD []) := by
    simp [packBody, List.append_assoc]
  have hhlen : (u32LE man ++ (u32LE prod ++ (u32LE sp ++ (u32LE note ++ (u32LE frac ++
      (u32LE sfmt ++ (u32LE soff ++ (u32LE loops.length ++
        u32LE (sd.getD []).length)))))))).length = 36 := by
    simp [u32LE_length]
  have hrecs := loopRecords_read loops
    (u32LE man ++ (u32LE prod ++ (u32LE sp ++ (u32LE note ++ (u32LE frac ++ (u32LE sfmt ++
      (u32LE soff ++ (u32LE loops.length ++ u32LE (sd.getD []).length)))))))) (sd.getD [])
    hloops
  rw [hhlen] at hrecs
  have hloopmap : (List.range loops.length).map
      (fun i => loopUnpackAt (packBody (.smpl sp sd loops man prod note frac sfmt soff))
        (36 + 24 * i)) = loops := by
    have hstep : ∀ i ∈ List.range loops.length,
        loopUnpackAt (packBody (.smpl sp sd loops man prod note frac sfmt soff))
          (36 + 24 * i) =
        loopUnpackAt ((u32LE man ++ (u32LE prod ++ (u32LE sp ++ (u32LE note ++ (u32LE frac ++
          (u32LE sfmt ++ (u32LE soff ++ (u32LE loops.length ++
            u32LE (sd.getD []).length)))))))) ++ (packLoops loops ++ sd.getD []))
          (36 + 24 * i) := by
      intro i _
      rw [hassoc]
    rw [List.map_congr_left hstep, hrecs]
  have hdata : (packBody (.smpl sp sd loops man prod note frac sfmt soff)).drop
      (36 + loops.length * 24) = sd.getD [] ++ [] := by
    rw [hassoc]
    have hplen : ((u32LE man ++ (u32LE prod ++ (u32LE sp ++ (u32LE note ++ (u32LE frac ++
        (u32LE sfmt ++ (u32LE soff ++ (u32LE loops.length ++
          u32LE (sd.getD []).length)))))))) ++ packLoops loops).length =
        36 + loops.length * 24 := by
      simp [u32LE_length, packLoops_length]
      omega
    rw [← List.append_assoc, List.drop_left' hplen, List.append_nil]
  rw [List.append_nil] at hdata
  simp only [smplUnpack, e8, e0, e4, e12, e16, e20, e24, e28, e32,
    r32_eq sp hsp, r32_eq man hman, r32_eq prod hprod, r32_eq note hnote,
    r32_eq frac hfrac, r32_eq sfmt hsfmt, r32_eq soff hsoff,
    r32_eq loops.length hn, r32_eq (sd.getD []).length hdl, hloopmap, hdata,
    List.take_length]
  cases sd with
  | none => simp
  | some dd =>
    have hdd : dd ≠ [] := by
      simp only [Bool.and_eq_true] at hsd
      simpa using hsd.1
    simp only [Option.getD]
    rw [if_neg (by simpa using hdd)]

theorem drop4_le (a : Nat) (r : List Nat) : (u32LE a ++ r).drop 4 = r := rfl

theorem lablUnpack_pack (id : Nat) (label : List Nat)
    (h : validChunk .adtlItem (.labl id label) = true) :
    lablUnpack (packBody (.labl id label)) = .labl id label := by
  simp only [validChunk, Bool.and_eq_true, decide_eq_true_eq] at h
  obtain ⟨⟨hid, hall⟩, hlen⟩ := h
  have hascii : ∀ c ∈ label, 0 < c ∧ c < 128 := by
    intro c hc
    have := List.all_eq_true.mp hall c hc
    simpa using this
  have h8 : utf8Encode label = label := utf8Encode_ascii label (fun c hc => (hascii c hc).2)
  have h16 : utf16Len label = label.length := utf16Len_ascii label (fun c hc => (hascii c hc).2)
  have hz : evenUp (4 + label.length + 1) - (4 + utf8Len label) =
      (evenUp (4 + label.length + 1) - (4 + label.length) - 1) + 1 := by
    have g1 := evenUp_ge (4 + label.length + 1)
    simp only [utf8Len, h8]
    omega
  have hpack : packBody (.labl id label) =
      u32LE id ++ (label ++ (0 :: List.replicate
        (evenUp (4 + label.length + 1) - (4 + label.length) - 1) 0)) := by
    simp only [packBody, h8, h16, hz, List.replicate_succ, List.append_assoc]
  have hidx : (label ++ 0 :: List.replicate
      (evenUp (4 + label.length + 1) - (4 + label.length) - 1) 0).indexOf 0 = label.length :=
    indexOf_zero_append label _ (fun c hc => (hascii c hc).1)
  simp only [lablUnpack, hpack, drop4_le, hidx]
  have hreads : readU32LE (u32LE id ++ (label ++ (0 :: List.replicate
      (evenUp (4 + label.length + 1) - (4 + label.length) - 1) 0))) 0 = id :=
    readU32LE_pack id _ hid
  rw [hreads]
  have htake : (label ++ 0 :: List.replicate
      (evenUp (4 + label.length + 1) - (4 + label.length) - 1) 0).take label.length = label :=
    List.take_left' rfl
  rw [htake, utf8Decode_ascii label (fun c hc => (hascii c hc).2)]

theorem adtlItemUnpack_pack (c : Chunk) (h : validChunk .adtlItem c = true) :
    adtlItemUnpack (chunkTag c) (packBody c) = c := by
  cases c with
  | labl id label =>
    simp only [chunkTag, adtlItemUnpack, if_pos rfl]
    exact lablUnpack_pack id label h
  | unknown t d =>
    have ht : t ≠ TagLABL := by
      simp only [validChunk, Bool.and_eq_true, decide_eq_true_eq] at h
      exact h.1.1.2
    simp only [chunkTag, adtlItemUnpack, packBody]
    rw [if_neg ht]
  | format cc ch sr ab ba bits extra => simp [validChunk] at h
  | cue cues => simp [validChunk] at h
  | smpl sp sd loops man prod note frac sfmt soff => simp [validChunk] at h
  | adtl cs => simp [validChunk] at h
  | list b => simp [validChunk] at h
  | data d => simp [validChunk] at h

/-! ## Bounds of tags and lengths under validity -/

theorem chunkTag_lt_adtlItem (c : Chunk) (h : validChunk .adtlItem c = true) :
    chunkTag c < 4294967296 := by
  cases c with
  | labl id label => simp [chunkTag, TagLABL]
  | unknown t d =>
    simp only [validChunk, Bool.and_eq_true, decide_eq_true_eq] at h
    exact h.1.1.1
  | format cc ch sr ab ba bits extra => simp [validChunk] at h
  | cue cues => simp [validChunk] at h
  | smpl sp sd loops man prod note frac sfmt soff => simp [validChunk] at h
  | adtl cs => simp [validChunk] at h
  | list b => simp [validChunk] at h
  | data d => simp [validChunk] at h

theorem chunkLength_lt_adtlItem (c : Chunk) (h : validChunk .adtlItem c = true) :
    chunkLength c < 4294967296 := by
  cases c with
  | labl id label =>
    simp only [validChunk, Bool.and_eq_true, decide_eq_true_eq] at h
    obtain ⟨⟨hid, hall⟩, hlen⟩ := h
    have h16 : utf16Len label = label.length := utf16Len_ascii label (fun c hc => by
      have := List.all_eq_true.mp hall c hc
      simp at this
      exact this.2)
    simp only [chunkLength, h16]
    have := evenUp_le (4 + label.length + 1)
    omega
  | unknown t d =>
    simp only [validChunk, Bool.and_eq_true, decide_eq_true_eq] at h
    simpa [chunkLength] using h.2
  | format cc ch sr ab ba bits extra => simp [validChunk] at h
  | cue cues => simp [validChunk] at h
  | smpl sp sd loops man prod note frac sfmt soff => simp [validChunk] at h
  | adtl cs => simp [validChunk] at h
  | list b => simp [validChunk] at h
  | data d => simp [validChunk] at h

theorem chunkTag_lt_listBody (b : Chunk) (h : validChunk .listBody b = true) :
    chunkTag b < 4294967296 := by
  cases b with
  | adtl cs => simp [chunkTag, TagADTL]
  | unknown t d =>
    simp only [validChunk, Bool.and_eq_true, decide_eq_true_eq] at h
    exact h.1.1
  | format cc ch sr ab ba bits extra => simp [validChunk] at h
  | cue cues => simp [validChunk] at h
  | smpl sp sd loops man prod note frac sfmt soff => simp [validChunk] at h
  | labl id label => simp [validChunk] at h
  | list b => simp [validChunk] at h
  | data d => simp [validChunk] at h

theorem chunkTag_lt_top (c : Chunk) (h : validChunk .top c = true) :
    chunkTag c < 4294967296 := by
  cases c with
  | unknown t d =>
    simp only [validChunk, Bool.and_eq_true, decide_eq_true_eq] at h
    exact h.1.1.1.1.1.1.1
  | format cc ch sr ab ba bits extra => simp [chunkTag, TagFMT]
  | cue cues => simp [chunkTag, TagCUE]
  | smpl sp sd loops man prod note frac sfmt soff => simp [chunkTag, TagSMPL]
  | list b => simp [chunkTag, TagLIST]
  | data d => simp [chunkTag, TagDATA]
  | labl id label => simp [validChunk] at h
  | adtl cs => simp [validChunk] at h

theorem chunkLength_lt_top (c : Chunk) (h : validChunk .top c = true) :
    chunkLength c < 4294967296 := by
  cases c with
  | unknown t d =>
    simp only [validChunk, Bool.and_eq_true, decide_eq_true_eq] at h
    simpa [chunkLength] using h.2
  | format cc ch sr ab ba bits extra =>
    cases extra with
    | none =>
      simp only [validChunk, Bool.and_eq_true, decide_eq_true_eq] at h
      simp only [chunkLength, if_pos h.2]
      omega
    | some e =>
      simp only [validChunk, Bool.and_eq_true, decide_eq_true_eq] at h
      obtain ⟨_, ⟨hgt, helen⟩, _⟩ := h
      simp only [chunkLength, if_neg (by omega : ¬ cc ≤ 1)]
      simp only [Option.getD]
      omega
  | cue cues =>
    simp only [validChunk, Bool.and_eq_true, decide_eq_true_eq] at h
    simpa [chunkLength] using h.2
  | smpl sp sd loops man prod note frac sfmt soff =>
    simp only [validChunk, Bool.and_eq_true, decide_eq_true_eq] at h
    simpa [chunkLength] using h.2
  | list b =>
    simp only [validChunk, Bool.and_eq_true, decide_eq_true_eq] at h
    simpa [chunkLength] using h.2
  | data d =>
    simp only [validChunk, Bool.and_eq_true, decide_eq_true_eq] at h
    simpa [chunkLength] using h.2
  | labl id label => simp [validChunk] at h
  | adtl cs => simp [validChunk] at h

/-! ## The ADTL item loop decodes its own pack output -/

theorem validAdtlItems_cons_cons (c c' : Chunk) (cs : List Chunk)
    (h : validAdtlItems (c :: c' :: cs) = true) : chunkLength c % 2 = 0 := by
  simp only [validAdtlItems, Bool.and_eq_true, decide_eq_true_eq] at h
  exact h.1.2

theorem adtlLoop_stop (body : List Nat) (fuel idx : Nat) (h : body.length ≤ idx) :
    adtlLoop body (fuel + 1) idx = .ok [] := by
  simp only [adtlLoop]
  rw [if_neg (by omega)]

theorem adtlLoop_pack (cs : List Chunk) (body : List Nat) :
    ∀ fuel idx : Nat, cs.length < fuel → idx % 2 = 0 →
    body.drop idx = packAdtlItems cs →
    body.length = idx + (packAdtlItems cs).length →
    validAdtlItems cs = true →
    adtlLoop body fuel idx = .ok cs := by
  induction cs with
  | nil =>
    intro fuel idx hfuel hidx hdrop hlen hv
    cases fuel with
    | zero => omega
    | succ fuel =>
      simp only [packAdtlItems, List.length_nil] at hlen
      exact adtlLoop_stop body fuel idx (by omega)
  | cons c cs ih =>
    intro fuel idx hfuel hidx hdrop hlen hv
    obtain ⟨h1, hrest⟩ := validAdtlItems_cons c cs hv
    cases fuel with
    | zero => omega
    | succ fuel =>
      have hplen : (packBody c).length = chunkLength c := packBody_length_adtlItem c h1
      have hL : chunkLength c < 4294967296 := chunkLength_lt_adtlItem c h1
      have ht : chunkTag c < 4294967296 := chunkTag_lt_adtlItem c h1
      have hlen2 : (packAdtlItems (c :: cs)).length =
          8 + chunkLength c + (packAdtlItems cs).length := by
        simp only [packAdtlItems, List.length_append, u32BE_length, u32LE_length, hplen]
        try omega
      have hlt : idx < body.length := by omega
      have hdrop' : body.drop idx = u32BE (chunkTag c) ++ (u32LE (chunkLength c) ++
          (packBody c ++ packAdtlItems cs)) := by
        rw [hdrop]
        simp [packAdtlItems, List.append_assoc]
      have hrtag : readU32BE body idx = chunkTag c := by
        rw [readU32BE_at, hdrop', readU32BE_pack _ _ ht]
      have hrsize : readU32LE body (idx + 4) = chunkLength c := by
        rw [readU32LE_at4, hdrop', readU32LE_after_tag, readU32LE_pack _ _ hL]
      have hbody : (body.drop (idx + 8)).take (chunkLength c) = packBody c := by
        have h88 : body.drop (idx + 8) = packBody c ++ packAdtlItems cs := by
          rw [← List.drop_drop, hdrop', drop8_hdr]
        rw [h88, List.take_left' hplen]
      have hrec : adtlLoop body fuel
          (if (idx + 8 + chunkLength c) % 2 = 1 then idx + 8 + chunkLength c + 1
            else idx + 8 + chunkLength c) = .ok cs := by
        have hz : (packAdtlItems ([] : List Chunk)).length = 0 := rfl
        cases cs with
        | nil =>
          have hbl : body.length = idx + 8 + chunkLength c := by omega
          cases fuel with
          | zero => exact absurd hfuel (by simp)
          | succ fuel =>
            split
            · exact adtlLoop_stop body fuel _ (by omega)
            · exact adtlLoop_stop body fuel _ (by omega)
        | cons c' cs' =>
          have heven : chunkLength c % 2 = 0 := validAdtlItems_cons_cons c c' cs' hv
          rw [if_neg (by omega)]
          have hsplit : u32BE (chunkTag c) ++ (u32LE (chunkLength c) ++
              (packBody c ++ packAdtlItems (c' :: cs'))) =
              (u32BE (chunkTag c) ++ (u32LE (chunkLength c) ++ packBody c)) ++
                packAdtlItems (c' :: cs') := by
            simp [List.append_assoc]
          have hprelen : (u32BE (chunkTag c) ++ (u32LE (chunkLength c) ++
              packBody c)).length = 8 + chunkLength c := by
            simp only [List.length_append, u32BE_length, u32LE_length, hplen]
            omega
          have hdropN : body.drop (idx + 8 + chunkLength c) = packAdtlItems (c' :: cs') := by
            have e1 : (body.drop idx).drop (8 + chunkLength c) =
                body.drop (idx + 8 + chunkLength c) := by
              rw [List.drop_drop]
              congr 1
              omega
            rw [← e1, hdrop', hsplit, List.drop_left' hprelen]
          exact ih fuel (idx + 8 + chunkLength c) (by simp at hfuel ⊢; omega) (by omega)
            hdropN (by omega) hrest
      rw [show adtlLoop body (fuel + 1) idx = (if idx < body.length then
        (if body.length < idx + 8 then .error "header read out of range" else
          (if body.length < idx + 8 + readU32LE body (idx + 4) then
            .error "chunk view out of range"
          else
            match adtlLoop body fuel
              (if (idx + 8 + readU32LE body (idx + 4)) % 2 = 1 then
                idx + 8 + readU32LE body (idx + 4) + 1
              else idx + 8 + readU32LE body (idx + 4)) with
            | .ok items => .ok (adtlItemUnpack (readU32BE body idx)
                ((body.drop (idx + 8)).take (readU32LE body (idx + 4))) :: items)
            | .error e => .error e))
        else .ok []) from rfl]
      rw [if_pos hlt, if_neg (by omega : ¬ body.length < idx + 8), hrsize,
        if_neg (by omega : ¬ body.length < idx + 8 + chunkLength c), hrec, hrtag, hbody,
        adtlItemUnpack_pack c h1]

theorem adtlLenSum_ge (cs : List Chunk) : 8 * cs.length ≤ adtlLenSum cs := by
  induction cs with
  | nil => simp [adtlLenSum]
  | cons c cs ih => simp only [adtlLenSum, List.length_cons]; omega

theorem adtlUnpack_pack (cs : List Chunk) (hv : validAdtlItems cs = true) :
    adtlUnpack (packAdtlItems cs) = .ok (.adtl cs) := by
  have hfuel : cs.length < (packAdtlItems cs).length + 1 := by
    have h1 := packAdtlItems_length cs hv
    have h2 := adtlLenSum_ge cs
    omega
  have hloop := adtlLoop_pack cs (packAdtlItems cs) ((packAdtlItems cs).length + 1) 0
    hfuel rfl (by simp) (by omega) hv
  unfold adtlUnpack
  rw [hloop]
  rfl

theorem listUnpack_pack (b : Chunk) (hv : validChunk .listBody b = true) :
    listUnpack (packBody (.list b)) = .ok (.list b) := by
  have ht : chunkTag b < 4294967296 := chunkTag_lt_listBody b hv
  have hpack : packBody (.list b) = u32BE (chunkTag b) ++ packBody b := rfl
  have hlen : ¬ (packBody (.list b)).length < 4 := by
    rw [hpack]
    simp [u32BE_length]
  unfold listUnpack
  rw [if_neg hlen, hpack, readU32BE_pack _ _ ht, drop4_tag]
  cases b with
  | adtl cs =>
    have hv' : validAdtlItems cs = true := by simpa [validChunk] using hv
    simp only [chunkTag, listBodyUnpack, if_pos rfl]
    have : packBody (.adtl cs) = packAdtlItems cs := rfl
    rw [this, adtlUnpack_pack cs hv']
    rfl
  | unknown t d =>
    have htne : t ≠ TagADTL := by
      simp only [validChunk, Bool.and_eq_true, decide_eq_true_eq] at hv
      exact hv.1.2
    simp only [chunkTag, listBodyUnpack]
    rw [if_neg htne]
    rfl
  | format cc ch sr ab ba bits extra => simp [validChunk] at hv
  | cue cues => simp [validChunk] at hv
  | smpl sp sd loops man prod note frac sfmt soff => simp [validChunk] at hv
  | labl id label => simp [validChunk] at hv
  | list b' => simp [validChunk] at hv
  | data d => simp [validChunk] at hv

theorem topUnpack_pack (c : Chunk) (hv : validChunk .top c = true) :
    topUnpack (chunkTag c) (packBody c) = .ok c := by
  cases c with
  | format cc ch sr ab ba bits extra =>
    simp only [chunkTag, topUnpack]
    rw [if_pos trivial]
    exact congrArg Except.ok (fmtUnpack_pack cc ch sr ab ba bits extra hv)
  | data d =>
    simp only [chunkTag, topUnpack]
    rfl
  | cue cues =>
    simp only [chunkTag, topUnpack]
    rw [if_pos trivial]
    exact congrArg Except.ok (cueUnpack_pack cues hv)
  | smpl sp sd loops man prod note frac sfmt soff =>
    simp only [chunkTag, topUnpack]
    rw [if_pos trivial]
    exact congrArg Except.ok (smplUnpack_pack sp sd loops man prod note frac sfmt soff hv)
  | list b =>
    have hv' : validChunk .listBody b = true := by
      simp only [validChunk, Bool.and_eq_true] at hv
      exact hv.1
    simp only [chunkTag, topUnpack]
    rw [if_pos trivial]
    exact listUnpack_pack b hv'
  | unknown t d =>
    simp only [validChunk, Bool.and_eq_true, decide_eq_true_eq] at hv
    obtain ⟨⟨⟨⟨⟨⟨⟨htlt, h1⟩, h2⟩, h3⟩, h4⟩, h5⟩, _⟩, _⟩ := hv
    simp only [chunkTag, topUnpack]
    rw [if_neg h1, if_neg h2, if_neg h3, if_neg h4, if_neg h5]
    rfl
  | labl id label => simp [validChunk] at hv
  | adtl cs => simp [validChunk] at hv

/-! ## The top-level chunk loop decodes encode output -/

theorem chunkBlock_length (c : Chunk) (h : validChunk .top c = true) :
    (chunkBlock c).length = 8 + chunkLength c + chunkLength c % 2 := by
  simp only [chunkBlock, List.length_append, u32BE_length, u32LE_length,
    packBody_length_top c h]
  split
  · simp
    omega
  · simp
    omega

theorem chunkBlock_ge8 (c : Chunk) : 8 ≤ (chunkBlock c).length := by
  simp only [chunkBlock, List.length_append, u32BE_length, u32LE_length]
  omega

theorem encodeBody_length_ge (cs : List Chunk) : 8 * cs.length ≤ (encodeBody cs).length := by
  induction cs with
  | nil => simp [encodeBody]
  | cons c cs ih =>
    have := chunkBlock_ge8 c
    simp only [encodeBody, List.length_append, List.length_cons]
    omega

theorem lastNonzeroB_single (c : Chunk) (h : lastNonzeroB [c] = true) :
    chunkLength c ≠ 0 := by
  simp only [lastNonzeroB, List.getLast?_singleton, decide_eq_true_eq] at h
  exact h

theorem lastNonzeroB_tail (c : Chunk) (cs : List Chunk)
    (h : lastNonzeroB (c :: cs) = true) : lastNonzeroB cs = true := by
  cases cs with
  | nil => rfl
  | cons c' cs' =>
    simp only [lastNonzeroB, List.getLast?_cons_cons] at h ⊢
    exact h

theorem decodeLoop_stop (buf : List Nat) (fl fuel idx : Nat) (h : fl ≤ idx) :
    decodeLoop buf fl (fuel + 1) idx = .ok [] := by
  simp only [decodeLoop]
  rw [if_neg (by omega)]

theorem decodeLoop_pack (cs : List Chunk) (buf : List Nat) (fl : Nat)
    (hfl : fl + 8 = buf.length) :
    ∀ fuel idx : Nat, cs.length < fuel → idx % 2 = 0 →
    buf.drop idx = encodeBody cs →
    buf.length = idx + (encodeBody cs).length →
    cs.all (validChunk .top) = true →
    lastNonzeroB cs = true →
    decodeLoop buf fl fuel idx = .ok cs := by
  induction cs with
  | nil =>
    intro fuel idx hfuel hidx hdrop hlen hv hlast
    cases fuel with
    | zero => omega
    | succ fuel =>
      have h0 : (encodeBody ([] : List Chunk)).length = 0 := rfl
      exact decodeLoop_stop buf fl fuel idx (by omega)
  | cons c cs ih =>
    intro fuel idx hfuel hidx hdrop hlen hv hlast
    have h1 : validChunk .top c = true := by
      simp only [List.all_cons, Bool.and_eq_true] at hv
      exact hv.1
    have hrestv : cs.all (validChunk .top) = true := by
      simp only [List.all_cons, Bool.and_eq_true] at hv
      exact hv.2
    cases fuel with
    | zero => omega
    | succ fuel =>
      have hplen : (packBody c).length = chunkLength c := packBody_length_top c h1
      have hL : chunkLength c < 4294967296 := chunkLength_lt_top c h1
      have ht : chunkTag c < 4294967296 := chunkTag_lt_top c h1
      have hblock : (chunkBlock c).length = 8 + chunkLength c + chunkLength c % 2 :=
        chunkBlock_length c h1
      have hlen2 : (encodeBody (c :: cs)).length =
          (chunkBlock c).length + (encodeBody cs).length := by
        simp [encodeBody]
      have hpos : 0 < chunkLength c + chunkLength c % 2 + (encodeBody cs).length := by
        cases cs with
        | nil =>
          have := lastNonzeroB_single c hlast
          omega
        | cons c' cs' =>
          have h8 := chunkBlock_ge8 c'
          have : 8 ≤ (encodeBody (c' :: cs')).length := by
            simp only [encodeBody, List.length_append]
            omega
          omega
      have hlt : idx < fl := by omega
      have hdrop' : buf.drop idx = u32BE (chunkTag c) ++ (u32LE (chunkLength c) ++
          (packBody c ++ ((if chunkLength c % 2 = 1 then [0] else []) ++ encodeBody cs))) := by
        rw [hdrop]
        simp [encodeBody, chunkBlock, List.append_assoc]
      have hrtag : readU32BE buf idx = chunkTag c := by
        rw [readU32BE_at, hdrop', readU32BE_pack _ _ ht]
      have hrsize : readU32LE buf (idx + 4) = chunkLength c := by
        rw [readU32LE_at4, hdrop', readU32LE_after_tag, readU32LE_pack _ _ hL]
      have hbody : (buf.drop (idx + 8)).take (chunkLength c) = packBody c := by
        have h88 : buf.drop (idx + 8) = packBody c ++
            ((if chunkLength c % 2 = 1 then [0] else []) ++ encodeBody cs) := by
          rw [← List.drop_drop, hdrop', drop8_hdr]
        rw [h88, List.take_left' hplen]
      have hrec : decodeLoop buf fl fuel
          (if (idx + 8 + chunkLength c) % 2 = 1 then idx + 8 + chunkLength c + 1
            else idx + 8 + chunkLength c) = .ok cs := by
        rcases Nat.even_or_odd (chunkLength c) with he | ho
        · have heven : chunkLength c % 2 = 0 := Nat.even_iff.mp he
          rw [if_neg (by omega)]
          have hsplit : u32BE (chunkTag c) ++ (u32LE (chunkLength c) ++
              (packBody c ++ ((if chunkLength c % 2 = 1 then [0] else []) ++
                encodeBody cs))) =
              (u32BE (chunkTag c) ++ (u32LE (chunkLength c) ++ packBody c)) ++
                encodeBody cs := by
            rw [if_neg (by omega)]
            simp [List.append_assoc]
          have hprelen : (u32BE (chunkTag c) ++ (u32LE (chunkLength c) ++
              packBody c)).length = 8 + chunkLength c := by
            simp only [List.length_append, u32BE_length, u32LE_length, hplen]
            omega
          have hdropN : buf.drop (idx + 8 + chunkLength c) = encodeBody cs := by
            have e1 : (buf.drop idx).drop (8 + chunkLength c) =
                buf.drop (idx + 8 + chunkLength c) := by
              rw [List.drop_drop]
              congr 1
              omega
            rw [← e1, hdrop', hsplit, List.drop_left' hprelen]
          exact ih fuel (idx + 8 + chunkLength c) (by simp at hfuel ⊢; omega) (by omega)
            hdropN (by omega) hrestv (lastNonzeroB_tail c cs hlast)
        · have hodd : chunkLength c % 2 = 1 := Nat.odd_iff.mp ho
          rw [if_pos (by omega)]
          have hsplit : u32BE (chunkTag c) ++ (u32LE (chunkLength c) ++
              (packBody c ++ ((if chunkLength c % 2 = 1 then [0] else []) ++
                encodeBody cs))) =
              (u32BE (chunkTag c) ++ (u32LE (chunkLength c) ++ (packBody c ++ [0]))) ++
                encodeBody cs := by
            rw [if_pos hodd]
            simp [List.append_assoc]
          have hprelen : (u32BE (chunkTag c) ++ (u32LE (chunkLength c) ++
              (packBody c ++ [0]))).length = 8 + chunkLength c + 1 := by
            simp only [List.length_append, u32BE_length, u32LE_length, hplen,
              List.length_singleton]
            omega
          have hdropN : buf.drop (idx + 8 + chunkLength c + 1) = encodeBody cs := by
            have e1 : (buf.drop idx).drop (8 + chunkLength c + 1) =
                buf.drop (idx + 8 + chunkLength c + 1) := by
              rw [List.drop_drop]
              congr 1
              omega
            rw [← e1, hdrop', hsplit, List.drop_left' hprelen]
          exact ih fuel (idx + 8 + chunkLength c + 1) (by simp at hfuel ⊢; omega)
            (by omega) hdropN (by omega) hrestv (lastNonzeroB_tail c cs hlast)
      rw [show decodeLoop buf fl (fuel + 1) idx = (if idx < fl then
        (if buf.length < idx + 8 then .error "header read out of range" else
          (if buf.length < idx + 8 + readU32LE buf (idx + 4) then
            .error "chunk view out of range"
          else
            match topUnpack (readU32BE buf idx)
                ((buf.drop (idx + 8)).take (readU32LE buf (idx + 4))) with
            | .error e => .error e
            | .ok c =>
              match decodeLoop buf fl fuel
                (if (idx + 8 + readU32LE buf (idx + 4)) % 2 = 1 then
                  idx + 8 + readU32LE buf (idx + 4) + 1
                else idx + 8 + readU32LE buf (idx + 4)) with
              | .ok chunks => .ok (c :: chunks)
              | .error e => .error e))
        else .ok []) from rfl]
      rw [if_pos hlt, if_neg (by omega : ¬ buf.length < idx + 8), hrsize,
        if_neg (by omega : ¬ buf.length < idx + 8 + chunkLength c), hrtag, hbody,
        topUnpack_pack c h1, hrec]

/-! ## Whole-file round trip -/

theorem encodeWave_unfold (cs : List Chunk) : encodeWave cs =
    u32BE TagRIFF ++ (u32LE ((encodeBody cs).length + 4) ++
      (u32BE TagWAVE ++ encodeBody cs)) := rfl

theorem encodeWave_length (cs : List Chunk) :
    (encodeWave cs).length = 12 + (encodeBody cs).length := by
  rw [encodeWave_unfold]
  simp only [List.length_append, u32BE_length, u32LE_length]
  omega

theorem roundtrip_aux (cs : List Chunk) (h1 : validWave cs = true)
    (h2 : lastNonzeroB cs = true) : decodeWave (encodeWave cs) = .ok cs := by
  have hvw := h1
  simp only [validWave, Bool.and_eq_true, decide_eq_true_eq] at hvw
  obtain ⟨hv, hbound⟩ := hvw
  have hbl : (encodeWave cs).length = 12 + (encodeBody cs).length := encodeWave_length cs
  have hR : readU32BE (encodeWave cs) 0 = TagRIFF := by
    rw [encodeWave_unfold]
    exact readU32BE_pack _ _ (by decide)
  have hW : readU32BE (encodeWave cs) 8 = TagWAVE := by
    rw [encodeWave_unfold, readU32BE_after_hdr]
    exact readU32BE_pack _ _ (by decide)
  have hFL : readU32LE (encodeWave cs) 4 = (encodeBody cs).length + 4 := by
    rw [encodeWave_unfold, readU32LE_after_tag]
    exact readU32LE_pack _ _ (by omega)
  have hdrop12 : (encodeWave cs).drop 12 = encodeBody cs := by
    rw [encodeWave_unfold, drop12_riff]
  unfold decodeWave
  rw [if_neg (by omega : ¬ (encodeWave cs).length < 4)]
  rw [if_neg (by rw [hR]; simp : ¬ readU32BE (encodeWave cs) 0 ≠ TagRIFF)]
  rw [if_neg (by omega : ¬ (encodeWave cs).length < 12)]
  rw [if_neg (by rw [hW]; simp : ¬ readU32BE (encodeWave cs) 8 ≠ TagWAVE)]
  rw [hFL]
  rw [if_neg (by omega : ¬ (encodeWave cs).length < (encodeBody cs).length + 4 + 8)]
  exact decodeLoop_pack cs (encodeWave cs) ((encodeBody cs).length + 4) (by omega)
    ((encodeWave cs).length + 1) 12 (by have := encodeBody_length_ge cs; omega) rfl
    hdrop12 (by omega) hv h2

theorem evenUp_8add (L : Nat) : evenUp (8 + L) = 8 + L + L % 2 := by
  unfold evenUp
  split <;> omega

theorem encodeBody_length_sum (cs : List Chunk) (hv : cs.all (validChunk .top) = true) :
    (encodeBody cs).length = (cs.map (fun c => evenUp (8 + chunkLength c))).sum := by
  induction cs with
  | nil => rfl
  | cons c cs ih =>
    have h1 : validChunk .top c = true := by
      simp only [List.all_cons, Bool.and_eq_true] at hv
      exact hv.1
    have hrest : cs.all (validChunk .top) = true := by
      simp only [List.all_cons, Bool.and_eq_true] at hv
      exact hv.2
    simp only [encodeBody, List.length_append, List.map_cons, List.sum_cons,
      chunkBlock_length c h1, ih hrest, evenUp_8add]
    try omega

/-! ## Claim theorems -/

/-- C1 counterexample: the decode loop runs while `idx < declaredLength`
(which is `total - 8`), so a trailing zero-length chunk starts exactly at
`declaredLength` and is silently dropped: decoding the encoding of the
structurally valid wave `[DataChunk []]` yields no chunks at all. -/
theorem c1_trailing_empty_chunk_dropped :
    validWave [Chunk.data []] = true ∧
    decodeWave (encodeWave [Chunk.data []]) = .ok [] ∧
    ([] : List Chunk) ≠ [Chunk.data []] :=
  ⟨rfl, rfl, fun h => List.noConfusion h⟩

/-- C1 (amended): for every structurally valid Wave whose final chunk has a
nonzero body length and on which encode does not throw (no labl body within
4 bytes of the buffer end — under validity, exactly when the final chunk is
not a LIST/ADTL ending in a labl item), `encode W` returns a buffer and
`decode` of that buffer yields exactly W's chunk sequence (same number,
order, tags and field-for-field contents). -/
theorem decode_encode_roundtrip (cs : List Chunk) (h1 : validWave cs = true)
    (h2 : lastNonzeroB cs = true) (h3 : chunksThrow cs = false) :
    encodeWaveE cs = .ok (encodeWave cs) ∧ decodeWave (encodeWave cs) = .ok cs :=
  ⟨by unfold encodeWaveE; rw [if_neg (by simp [h3])], roundtrip_aux cs h1 h2⟩

theorem decode_encode_roundtrip_witness :
    validWave demoWave = true ∧ lastNonzeroB demoWave = true ∧
      chunksThrow demoWave = false ∧
      (encodeWaveE demoWave = .ok (encodeWave demoWave) ∧
        decodeWave (encodeWave demoWave) = .ok demoWave) :=
  ⟨by decide, by decide, by decide,
    decode_encode_roundtrip demoWave (by decide) (by decide) (by decide)⟩

/-- C2 counterexample: `B = encode [DataChunk []]` is a well-formed output
of encode, but `decode B` drops the trailing zero-length chunk, so
re-encoding gives a 12-byte file instead of the original 20 bytes. -/
theorem c2_encode_decode_not_byte_identical :
    validWave [Chunk.data []] = true ∧
    decodeWave (encodeWave [Chunk.data []]) = .ok ([] : List Chunk) ∧
    encodeWave ([] : List Chunk) ≠ encodeWave [Chunk.data []] :=
  ⟨rfl, rfl, by decide⟩

/-- C2 (amended): for every buffer produced by `encode` on a structurally
valid Wave whose final chunk has nonzero length, decoding and re-encoding
reproduces the buffer byte-for-byte (alignment pads included). -/
theorem encode_decode_encode (cs : List Chunk) (h1 : validWave cs = true)
    (h2 : lastNonzeroB cs = true) :
    ∃ cs', decodeWave (encodeWave cs) = .ok cs' ∧ encodeWave cs' = encodeWave cs :=
  ⟨cs, roundtrip_aux cs h1 h2, rfl⟩

theorem encode_decode_encode_witness :
    validWave [Chunk.data [1]] = true ∧ lastNonzeroB [Chunk.data [1]] = true ∧
      ∃ cs', decodeWave (encodeWave [Chunk.data [1]]) = .ok cs' ∧
        encodeWave cs' = encodeWave [Chunk.data [1]] :=
  ⟨by decide, by decide, encode_decode_encode [Chunk.data [1]] (by decide) (by decide)⟩

/-- C3: `ListChunk_ADTL.pack` writes items back-to-back with NO pad byte
(19 bytes here: 8 + 1 + 8 + 2; the claimed padded layout would be 20 with
the second header at an even offset), while `unpack` does skip a pad byte
after the odd-length item — so unpack cannot re-parse pack's own output. -/
theorem adtl_pack_unpack_divergence :
    (packBody (Chunk.adtl adtlOddItems)).length = 19 ∧
    adtlUnpack (packBody (Chunk.adtl adtlOddItems)) = .error "chunk view out of range" :=
  ⟨rfl, rfl⟩

/-- Supporting result: the byte image of encode has exactly 12 plus, for
each chunk, `8 + chunk.length()` rounded up to even, bytes (the buffer size
the source allocates). -/
theorem encode_length_formula (cs : List Chunk) (h : validWave cs = true) :
    (encodeWave cs).length = 12 + (cs.map (fun c => evenUp (8 + chunkLength c))).sum := by
  have hv : cs.all (validChunk .top) = true := by
    simp only [validWave, Bool.and_eq_true] at h
    exact h.1
  rw [encodeWave_length, encodeBody_length_sum cs hv]

/-- C4: encode does NOT always succeed on structurally valid waves.  On the
valid wave `[ListChunk(ADTL([LABL(1, "hi")]))]` — final chunk of nonzero
length — the allocated buffer is 40 bytes and the labl body ends flush at
its end, so `ListChunk_ADTL_LABL.pack`'s `Uint8Array` view (4 bytes longer
than the body) overruns the buffer and the encoder throws a `RangeError`
instead of returning a buffer. -/
theorem encode_throws_on_trailing_labl :
    validWave lablEndWave = true ∧ lastNonzeroB lablEndWave = true ∧
    (encodeWave lablEndWave).length = 40 ∧
    encodeWaveE lablEndWave = .error "RangeError: Invalid typed array length" :=
  ⟨rfl, rfl, rfl, rfl⟩

/-- C5: `ListChunk_ADTL_LABL.length()` counts UTF-16 code units
(`cueLabel.length`), not UTF-8 bytes: for the label "é" (code point 233,
one UTF-16 unit but two UTF-8 bytes) it returns 6, while the claimed
formula `roundUpToEven(4 + utf8ByteLength + 1)` gives 8. -/
theorem labl_length_utf16_bug :
    chunkLength (Chunk.labl 0 [233]) = 6 ∧
    evenUp (4 + utf8Len [233] + 1) = 8 ∧ (6 : Nat) ≠ 8 :=
  ⟨rfl, rfl, by decide⟩

/-- C6: `FormatChunk.length()` is 16 whenever `compressionCode ≤ 1` and
`18 + N` for an extension of N bytes whenever `compressionCode > 1`;
`unpack` yields no extension when the decoded `compressionCode ≤ 1`, and
otherwise reads a u16 extension length at offset 16 and takes that many
bytes from offset 18. -/
theorem fmt_length_and_extension (cc ch sr ab ba bits : Nat) (extra : Option (List Nat))
    (e : List Nat) (body : List Nat) :
    (cc ≤ 1 → chunkLength (.format cc ch sr ab ba bits extra) = 16) ∧
    (1 < cc → chunkLength (.format cc ch sr ab ba bits (some e)) = 18 + e.length) ∧
    (readU16LE body 0 ≤ 1 → fmtExtra (fmtUnpack body) = none) ∧
    (1 < readU16LE body 0 →
      fmtExtra (fmtUnpack body) = some ((body.drop 18).take (readU16LE body 16))) := by
  refine ⟨?_, ?_, ?_, ?_⟩
  · intro h
    simp [chunkLength, if_pos h]
  · intro h
    simp only [chunkLength, if_neg (by omega : ¬ cc ≤ 1), Option.getD]
  · intro h
    simp only [fmtUnpack, fmtExtra]
    rw [if_neg (by omega : ¬ 1 < readU16LE body 0)]
  · intro h
    simp only [fmtUnpack, fmtExtra]
    rw [if_pos h]

theorem fmt_length_and_extension_witness :
    chunkLength (Chunk.format 1 2 44100 176400 4 16 none) = 16 ∧
    chunkLength (Chunk.format 2 2 44100 176400 4 16 (some [0xAB, 0xCD])) = 20 ∧
    fmtExtra (fmtUnpack fmtExtBody) = some [0xAB, 0xCD] := by
  refine ⟨(fmt_length_and_extension 1 2 44100 176400 4 16 none [] []).1 (by decide),
    ?_, ?_⟩
  · have h := (fmt_length_and_extension 2 2 44100 176400 4 16 none [0xAB, 0xCD] []).2.1
      (by decide)
    exact h.trans (by decide)
  · have h := (fmt_length_and_extension 0 0 0 0 0 0 none [] fmtExtBody).2.2.2
      (by decide)
    exact h.trans (by decide)

/-- C7: an unregistered tag decodes to an `UnknownChunk` carrying the tag
and body bytes in each of the three registries (top-level, LIST-body, and
ADTL-item), and re-packing an `UnknownChunk` emits exactly its stored
bytes. -/
theorem unknown_tag_roundtrip (t : Nat) (d : List Nat) :
    (t ≠ TagFMT → t ≠ TagDATA → t ≠ TagCUE → t ≠ TagSMPL → t ≠ TagLIST →
      topUnpack t d = .ok (.unknown t d)) ∧
    (t ≠ TagADTL → listBodyUnpack t d = .ok (.list (.unknown t d))) ∧
    (t ≠ TagLABL → adtlItemUnpack t d = .unknown t d) ∧
    packBody (.unknown t d) = d := by
  refine ⟨?_, ?_, ?_, rfl⟩
  · intro h1 h2 h3 h4 h5
    simp only [topUnpack]
    rw [if_neg h1, if_neg h2, if_neg h3, if_neg h4, if_neg h5]
  · intro h
    simp only [listBodyUnpack]
    rw [if_neg h]
  · intro h
    simp only [adtlItemUnpack]
    rw [if_neg h]

theorem unknown_tag_roundtrip_witness :
    topUnpack 0x58595A20 [1, 2, 3] = .ok (.unknown 0x58595A20 [1, 2, 3]) ∧
    listBodyUnpack 0x58595A20 [1, 2, 3] = .ok (.list (.unknown 0x58595A20 [1, 2, 3])) ∧
    adtlItemUnpack 0x58595A20 [1, 2, 3] = .unknown 0x58595A20 [1, 2, 3] := by
  obtain ⟨h1, h2, h3, _⟩ := unknown_tag_roundtrip 0x58595A20 [1, 2, 3]
  exact ⟨h1 (by decide) (by decide) (by decide) (by decide) (by decide),
    h2 (by decide), h3 (by decide)⟩

theorem removeChunkLoop_eq_find (t : Nat) (cs : List Chunk) :
    removeChunkLoop t cs = cs.find? (fun c => chunkTag c == t) := by
  induction cs with
  | nil => rfl
  | cons c cs ih =>
    by_cases h : chunkTag c = t
    · simp [removeChunkLoop, List.find?, h]
    · simp only [removeChunkLoop, List.find?]
      rw [if_neg h, ih]
      have hb : (chunkTag c == t) = false := by simp [h]
      rw [hb]

/-- C8: `Wave.removeChunk` returns the first chunk whose tag matches (none
when there is no match) and leaves the chunk list untouched: the method
body only reads `this.chunks` and never splices it. -/
theorem removeChunk_no_removal (cs : List Chunk) (t : Nat) :
    (removeChunk cs t).1 = cs.find? (fun c => chunkTag c == t) ∧
    (removeChunk cs t).2 = cs :=
  ⟨removeChunkLoop_eq_find t cs, rfl⟩

/-- C9: `Wave.decode` fails when bytes [0..4) are not the big-endian `RIFF`
tag, when bytes [8..12) are not `WAVE`, or when the declared u32 length at
offset 4 plus 8 exceeds the buffer length; in each case the result is an
error carrying no chunks. -/
theorem decode_failure_cases (buf : List Nat) :
    (readU32BE buf 0 ≠ TagRIFF → isErr (decodeWave buf) = true) ∧
    (readU32BE buf 8 ≠ TagWAVE → isErr (decodeWave buf) = true) ∧
    (buf.length < readU32LE buf 4 + 8 → isErr (decodeWave buf) = true) := by
  refine ⟨?_, ?_, ?_⟩ <;> intro h <;> unfold decodeWave <;> split_ifs <;> rfl

theorem decode_failure_cases_witness :
    readU32BE [0, 0, 0, 0] 0 ≠ TagRIFF ∧ isErr (decodeWave [0, 0, 0, 0]) = true :=
  ⟨by decide, (decode_failure_cases [0, 0, 0, 0]).1 (by decide)⟩

theorem byteAt_lt (l : List Nat) (h : bytesOk l = true) (i : Nat) : byteAt l i < 256 := by
  induction l generalizing i with
  | nil => simp [byteAt]
  | cons b l ih =>
    simp only [bytesOk, List.all_cons, Bool.and_eq_true, decide_eq_true_eq] at h
    cases i with
    | zero => exact h.1
    | succ i =>
      rw [byteAt_cons_succ]
      exact ih h.2 i

/-- C10 counterexample: `reinterpret(16)` on a 3-byte payload returns a
one-element view covering only 2 bytes — not "the same number of bytes as
the payload" as the claim states. -/
theorem reinterpret_not_same_byte_length :
    reinterpret [0, 0, 0] 16 = .ok [(0 : Int)] ∧
    ¬ ∃ l : List Int, reinterpret [0, 0, 0] 16 = .ok l ∧ 2 * l.length = 3 := by
  refine ⟨rfl, ?_⟩
  rintro ⟨l, hl, hlen⟩
  have h0 : reinterpret [0, 0, 0] 16 = .ok [(0 : Int)] := rfl
  rw [h0] at hl
  have : [(0 : Int)] = l := by
    injection hl
  subst this
  simp at hlen

/-- C10 (amended): `reinterpret(8)` returns the payload itself (unsigned
byte values); `reinterpret(16)` and `reinterpret(32)` return views of
`floor(byteLength / w)` signed little-endian elements, covering the largest
multiple of the element size that fits; every other bit depth fails with
the unsupported-reinterpretation error, and the operation never modifies
the chunk (it is read-only). -/
theorem reinterpret_floor_views (d : List Nat) (bits : Nat) (hd : bytesOk d = true) :
    (reinterpret d 8 = .ok (d.map (fun b => (b : Int)))) ∧
    (∃ l, reinterpret d 16 = .ok l ∧ l.length = d.length / 2 ∧
      ∀ x ∈ l, -32768 ≤ x ∧ x < 32768) ∧
    (∃ l, reinterpret d 32 = .ok l ∧ l.length = d.length / 4 ∧
      ∀ x ∈ l, -2147483648 ≤ x ∧ x < 2147483648) ∧
    (bits ≠ 8 → bits ≠ 16 → bits ≠ 32 → isErr (reinterpret d bits) = true) := by
  refine ⟨rfl, ⟨_, rfl, by simp, ?_⟩, ⟨_, rfl, by simp, ?_⟩, ?_⟩
  · intro x hx
    simp only [List.mem_map] at hx
    obtain ⟨i, _, hxi⟩ := hx
    have hb0 := byteAt_lt d hd (2 * i)
    have hb1 := byteAt_lt d hd (2 * i + 1)
    have hv : readU16LE d (2 * i) < 65536 := by
      unfold readU16LE
      omega
    rw [← hxi]
    unfold toInt16
    split <;> omega
  · intro x hx
    simp only [List.mem_map] at hx
    obtain ⟨i, _, hxi⟩ := hx
    have hb0 := byteAt_lt d hd (4 * i)
    have hb1 := byteAt_lt d hd (4 * i + 1)
    have hb2 := byteAt_lt d hd (4 * i + 2)
    have hb3 := byteAt_lt d hd (4 * i + 3)
    have hv : readU32LE d (4 * i) < 4294967296 := by
      unfold readU32LE
      omega
    rw [← hxi]
    unfold toInt32
    split <;> omega
  · intro h8 h16 h32
    unfold reinterpret
    rw [if_neg h8, if_neg h16, if_neg h32]
    rfl

theorem reinterpret_floor_views_witness :
    bytesOk [1, 2, 3] = true ∧
    reinterpret [1, 2, 3] 8 = .ok ([1, 2, 3].map (fun b => (b : Int))) ∧
    isErr (reinterpret [1, 2, 3] 7) = true := by
  obtain ⟨h8, _, _, herr⟩ := reinterpret_floor_views [1, 2, 3] 7 (by decide)
  exact ⟨by decide, h8, herr (by decide) (by decide) (by decide)⟩
